import Mathlib

/-!
Verification of the Andersson tree library (`jsw_atree.c`).

Shallow embedding notes:
* A `jsw_anode_t` is a constructor of the inductive type `ATree`; the
  sentinel `tree->nil` is the constructor `ATree.nil`.  The sentinel's
  fields (`level = 0`, both links pointing to itself, `data = NULL`) are
  reproduced by the functions `lvl`, `llink`, `rlink`, `dataOf`.
* The user-supplied comparison `cmp_f` is a parameter `cmp : α → α → Int`
  (the C code only ever inspects the sign of its result).  The `dup`/`rel`
  policy copies and releases opaque elements: in the embedding elements
  are immutable values, and a "release" is modeled by reporting the
  released value (`jsw_aerase` returns it, `jsw_adelete` lists them).
* `malloc` failure is modeled by a boolean `alloc` oracle passed to
  `jsw_ainsert`: the single node allocation of an insert either succeeds
  or fails.
* The iterative path-stack algorithms of the C code are rendered as
  structural recursion: the stack of visited nodes in `jsw_ainsert` /
  `jsw_aerase` is exactly the chain of recursive calls, and the
  "walk back and rebalance, relinking into the parent" loop is the
  post-recursion rewrapping of each ancestor.  The C path arrays are
  bounded by HEIGHT_LIMIT = 64, which the library cannot exceed for any
  feasible tree; the embedding is unbounded.
-/

namespace JswAtree

inductive ATree (α : Type) where
  | nil : ATree α
  | node (level : Nat) (data : α) (link0 link1 : ATree α) : ATree α
deriving DecidableEq

variable {α : Type}

/-- Node level; the sentinel has level 0 (`rt->nil->level = 0`). -/
def lvl : ATree α → Nat
  | .nil => 0
  | .node lv _ _ _ => lv

/-- `link[0]` (low side); the sentinel's links point to itself. -/
def llink : ATree α → ATree α
  | .nil => .nil
  | .node _ _ l _ => l

/-- `link[1]` (high side); the sentinel's links point to itself. -/
def rlink : ATree α → ATree α
  | .nil => .nil
  | .node _ _ _ r => r

/-- `it->data`; the sentinel holds `NULL` (`none`). -/
def dataOf : ATree α → Option α
  | .nil => none
  | .node _ d _ _ => some d

def isNil : ATree α → Bool
  | .nil => true
  | .node _ _ _ _ => false

/-- Number of real nodes. -/
def asize : ATree α → Nat
  | .nil => 0
  | .node _ _ l r => asize l + asize r + 1

/-- In-order list of stored elements. -/
def elems : ATree α → List α
  | .nil => []
  | .node _ d l r => elems l ++ d :: elems r

/-- The `skew` macro: remove a left horizontal link by right rotation.
The C condition `t->link[0]->level == t->level && t->level != 0` can only
hold when `link[0]` is a real node (the sentinel has level 0), so the
rotation case matches on a real left child; all other trees are returned
unchanged. -/
def skew : ATree α → ATree α
  | .node lv d (.node llv ld ll lr) r =>
    if llv = lv ∧ lv ≠ 0 then .node llv ld ll (.node lv d lr r)
    else .node lv d (.node llv ld ll lr) r
  | t => t

/-- The `split` macro: remove two consecutive right horizontal links by a
left rotation, incrementing the new root's level.  The C condition
`t->link[1]->link[1]->level == t->level && t->level != 0` can only hold
when `link[1]` is a real node. -/
def split : ATree α → ATree α
  | .node lv d l (.node rlv rd rl rr) =>
    if lvl rr = lv ∧ lv ≠ 0 then .node (rlv + 1) rd (.node lv d l rl) rr
    else .node lv d l (.node rlv rd rl rr)
  | t => t

/-- `new_node`: a fresh level-1 node holding (the clone of) `data`, both
links to the sentinel.  Allocation failure (`malloc == NULL`) is decided
by the `alloc` oracle; on failure the C function returns `tree->nil`. -/
def new_node (alloc : Bool) (data : α) : Option (ATree α) :=
  if alloc then some (.node 1 data .nil .nil) else none

/-- Recursive core of `jsw_ainsert`: descend by
`dir = (cmp(it->data, data) < 0)` (ties go low), attach the new node at
the sentinel, then on the way back up apply `skew` and `split` at every
node of the recorded path and relink it into its parent.  `none`
propagates the allocation failure with every link unchanged. -/
def ainsertGo (cmp : α → α → Int) (x : α) (alloc : Bool) : ATree α → Option (ATree α)
  | .nil => new_node alloc x
  | .node lv d l r =>
    if cmp d x < 0 then
      (ainsertGo cmp x alloc r).map (fun r' => split (skew (.node lv d l r')))
    else
      (ainsertGo cmp x alloc l).map (fun l' => split (skew (.node lv d l' r)))

/-- `jsw_afind`: descend comparing the stored element against the probe;
`cmp == 0` returns the stored element, otherwise follow
`link[cmp < 0]`; reaching the sentinel returns its `NULL` data. -/
def jsw_afind (cmp : α → α → Int) (x : α) : ATree α → Option α
  | .nil => none
  | .node _ d l r =>
    if cmp d x = 0 then some d
    else if cmp d x < 0 then jsw_afind cmp x r
    else jsw_afind cmp x l

/-- Overwrite a node's level (the sentinel is never written in the C
code; the guarding conditions make the `nil` case unreachable). -/
def setLvl (n : Nat) : ATree α → ATree α
  | .nil => .nil
  | .node _ d l r => .node n d l r

/-- Apply `f` to the high child: the effect of a C macro call
`skew(up->link[1])` / `split(up->link[1])` on the local variable `up`. -/
def onR (f : ATree α → ATree α) : ATree α → ATree α
  | .nil => .nil
  | .node lv d l r => .node lv d l (f r)

/-- The "black magic" erase fix-up applied at one ancestor `up` of
`jsw_aerase`'s walk back up the path:
if either child's level has fallen below `up->level - 1`, decrement
`up->level`, cap `up->link[1]->level` down to it if it now exceeds it,
then `skew(up)`, `skew(up->link[1])`, `skew(up->link[1]->link[1])`,
`split(up)`, `split(up->link[1])`.  (Note `lvl l < lv - 1` over `Nat`
agrees with the C `int` comparison for every `lv`, because both sides
are nonnegative and the condition is unsatisfiable for `lv ≤ 1`.) -/
def rebalance : ATree α → ATree α
  | .nil => .nil
  | .node lv d l r =>
    if lvl l < lv - 1 ∨ lvl r < lv - 1 then
      onR split (split (onR (onR skew) (onR skew (skew
        (.node (lv - 1) d l (if lv - 1 < lvl r then setLvl (lv - 1) r else r))))))
    else .node lv d l r

/-- The two-child case's successor search of `jsw_aerase`: walk to the
leftmost node of the subtree (recording the path), splice that heir out
(`prev->link[prev == it] = heir->link[1]`), return its element, and
apply the erase fix-up at every node of the recorded path on the way
back up.  Returns `none` exactly on the sentinel. -/
def removeMin : ATree α → Option (α × ATree α)
  | .nil => none
  | .node lv d l r =>
    match removeMin l with
    | none => some (d, r)
    | some (m, l') => some (m, rebalance (.node lv d l' r))

/-- `jsw_aerase` below the root: descend comparing (saving the path),
`none` when the sentinel is reached.  At the found node: if some child
is the sentinel, the parent adopts the other link
(`path[top-1]->link[dir] = it->link[dir2]`); otherwise release the found
element, move the in-order successor's element into the node and splice
the successor out.  Each ancestor on the path is rebalanced and relinked
on the way back up.  The returned `α` is the element passed to
`tree->rel`. -/
def eraseGo (cmp : α → α → Int) (x : α) : ATree α → Option (α × ATree α)
  | .nil => none
  | .node lv d l r =>
    if cmp d x = 0 then
      if isNil l then some (d, r)
      else if isNil r then some (d, l)
      else (removeMin r).map (fun p => (d, rebalance (.node lv p.1 l p.2)))
    else if cmp d x < 0 then
      (eraseGo cmp x r).map (fun p => (p.1, rebalance (.node lv d l p.2)))
    else
      (eraseGo cmp x l).map (fun p => (p.1, rebalance (.node lv d p.2 r)))

/-- `jsw_aerase` at the top level.  Identical to `eraseGo` except in the
single-child case at the root, where the C code runs
`tree->root = it->link[1]` unconditionally — it installs the HIGH child
even when the low child is the real one (see claim C10: under the level
invariant a node with a sentinel high child also has a sentinel low
child, so nothing is lost on reachable trees; the embedding reproduces
the raw behavior, dropping `l`). -/
def jsw_aerase (cmp : α → α → Int) (x : α) : ATree α → Option (α × ATree α)
  | .nil => none
  | .node lv d l r =>
    if cmp d x = 0 then
      if isNil l ∨ isNil r then some (d, r)
      else (removeMin r).map (fun p => (d, rebalance (.node lv p.1 l p.2)))
    else if cmp d x < 0 then
      (eraseGo cmp x r).map (fun p => (p.1, rebalance (.node lv d l p.2)))
    else
      (eraseGo cmp x l).map (fun p => (p.1, rebalance (.node lv d p.2 r)))

/-- Weight used to show `jsw_adelete`'s destruction-by-rotation loop
terminates: right rotations strictly decrease it while the node count is
unchanged, and removing a node decreases the node count. -/
def wmes : ATree α → Nat
  | .nil => 0
  | .node _ _ l r => wmes l + wmes r + asize l

/-- `jsw_adelete`, destruction by rotation: while the current node has a
real low child, rotate it right; otherwise release its element and move
to its high child.  The returned list is the sequence of elements passed
to `tree->rel`, in release order. -/
def jsw_adelete : ATree α → List α
  | .nil => []
  | .node _ d .nil r => d :: jsw_adelete r
  | .node lv d (.node llv ld ll lr) r =>
    jsw_adelete (.node llv ld ll (.node lv d lr r))
termination_by t => asize t + wmes t
decreasing_by
  all_goals simp [asize, wmes]
  all_goals omega

/-- The `jsw_atree` structure: root and size counter (the three policy
operations are passed as parameters where needed; the sentinel is the
`ATree.nil` constructor). -/
structure Jtree (α : Type) where
  root : ATree α
  size : Nat
deriving DecidableEq

/-- `jsw_anew`: empty root (the sentinel), size 0. -/
def jsw_anew : Jtree α := ⟨.nil, 0⟩

/-- `jsw_ainsert` on the tree structure: `++tree->size` and result 1
only when the insertion succeeded; allocation failure returns 0 with
the tree unmodified. -/
def jsw_ainsert (cmp : α → α → Int) (alloc : Bool) (x : α) (t : Jtree α) :
    Bool × Jtree α :=
  match ainsertGo cmp x alloc t.root with
  | none => (false, t)
  | some rt => (true, ⟨rt, t.size + 1⟩)

/-- `jsw_aerase` on the tree structure: `--tree->size` and result 1 only
on success; the released element is reported (`tree->rel` is called on
it exactly when the result is 1). -/
def jsw_aeraseT (cmp : α → α → Int) (x : α) (t : Jtree α) :
    Bool × Jtree α × Option α :=
  match jsw_aerase cmp x t.root with
  | none => (false, t, none)
  | some (m, rt) => (true, ⟨rt, t.size - 1⟩, some m)

/-- `jsw_asize`. -/
def jsw_asize (t : Jtree α) : Nat := t.size

/-! ### The Andersson level invariant -/

/-- The level-balance invariant maintained by skew/split: for every real
node, the low child's level is exactly one less, the high child's level
is equal or one less, and the high child's high child is strictly lower
(no two consecutive high-side horizontal links). -/
def Inv : ATree α → Prop
  | .nil => True
  | .node lv _ l r =>
    Inv l ∧ Inv r ∧ lvl l + 1 = lv ∧ (lvl r + 1 = lv ∨ lvl r = lv) ∧ lvl (rlink r) < lv

@[simp] theorem lvl_nil : lvl (ATree.nil : ATree α) = 0 := rfl

@[simp] theorem lvl_node (lv : Nat) (d : α) (l r : ATree α) :
    lvl (ATree.node lv d l r) = lv := rfl

@[simp] theorem llink_nil : llink (ATree.nil : ATree α) = ATree.nil := rfl

@[simp] theorem llink_node (lv : Nat) (d : α) (l r : ATree α) :
    llink (ATree.node lv d l r) = l := rfl

@[simp] theorem rlink_nil : rlink (ATree.nil : ATree α) = ATree.nil := rfl

@[simp] theorem rlink_node (lv : Nat) (d : α) (l r : ATree α) :
    rlink (ATree.node lv d l r) = r := rfl

@[simp] theorem inv_nil : Inv (ATree.nil : ATree α) := trivial

theorem inv_node_iff (lv : Nat) (d : α) (l r : ATree α) :
    Inv (ATree.node lv d l r) ↔
      Inv l ∧ Inv r ∧ lvl l + 1 = lv ∧ (lvl r + 1 = lv ∨ lvl r = lv) ∧
        lvl (rlink r) < lv := Iff.rfl

theorem inv_rlink_le {t : ATree α} (h : Inv t) : lvl (rlink t) ≤ lvl t := by
  cases t with
  | nil => simp
  | node lv d l r => obtain ⟨-, -, -, hr, -⟩ := h; simp; omega

theorem inv_llink_lt {lv : Nat} {d : α} {l r : ATree α}
    (h : Inv (ATree.node lv d l r)) : lvl l < lv := by
  obtain ⟨-, -, hl, -, -⟩ := h; omega

theorem inv_lvl_zero {t : ATree α} (h : Inv t) (h0 : lvl t = 0) : t = .nil := by
  cases t with
  | nil => rfl
  | node lv d l r => obtain ⟨-, -, hl, -, -⟩ := h; simp at h0; omega

/-- Under the invariant, `skew` is the identity: a real node never has a
horizontal low link. -/
theorem skew_of_inv {t : ATree α} (h : Inv t) : skew t = t := by
  cases t with
  | nil => rfl
  | node lv d l r =>
    have hl := inv_llink_lt h
    cases l with
    | nil => rfl
    | node llv ld ll lr =>
      simp only [lvl_node] at hl
      simp only [skew, if_neg (by omega : ¬(llv = lv ∧ lv ≠ 0))]

theorem skew_noop {lv : Nat} {d : α} {l r : ATree α} (h : lvl l ≠ lv) :
    skew (ATree.node lv d l r) = ATree.node lv d l r := by
  cases l with
  | nil => rfl
  | node llv ld ll lr =>
    simp only [lvl_node] at h
    simp only [skew, if_neg (by omega : ¬(llv = lv ∧ lv ≠ 0))]

theorem skew_fire {lv : Nat} {d ld : α} {ll lr r : ATree α} (h0 : lv ≠ 0) :
    skew (ATree.node lv d (ATree.node lv ld ll lr) r) =
      ATree.node lv ld ll (ATree.node lv d lr r) := by
  simp [skew, h0]

theorem split_noop {lv : Nat} {d : α} {l r : ATree α} (h : lvl (rlink r) ≠ lv) :
    split (ATree.node lv d l r) = ATree.node lv d l r := by
  cases r with
  | nil => rfl
  | node rlv rd rl rr =>
    simp only [rlink_node] at h
    simp only [split, if_neg (by tauto : ¬(lvl rr = lv ∧ lv ≠ 0))]

theorem split_fire {lv rlv : Nat} {d rd : α} {l rl rr : ATree α} (h0 : lv ≠ 0)
    (h : lvl rr = lv) :
    split (ATree.node lv d l (ATree.node rlv rd rl rr)) =
      ATree.node (rlv + 1) rd (ATree.node lv d l rl) rr := by
  simp [split, h, h0]

/-- Success path of `jsw_ainsert` (allocation succeeding), as a total
function; `ainsertGo_true` relates it to the faithful embedding. -/
def insT (cmp : α → α → Int) (x : α) : ATree α → ATree α
  | .nil => .node 1 x .nil .nil
  | .node lv d l r =>
    if cmp d x < 0 then split (skew (.node lv d l (insT cmp x r)))
    else split (skew (.node lv d (insT cmp x l) r))

theorem ainsertGo_true (cmp : α → α → Int) (x : α) (t : ATree α) :
    ainsertGo cmp x true t = some (insT cmp x t) := by
  induction t with
  | nil => rfl
  | node lv d l r ihl ihr =>
    by_cases hc : cmp d x < 0 <;>
      simp [ainsertGo, insT, hc, ihl, ihr]

theorem ainsertGo_false (cmp : α → α → Int) (x : α) (t : ATree α) :
    ainsertGo cmp x false t = none := by
  induction t with
  | nil => rfl
  | node lv d l r ihl ihr =>
    by_cases hc : cmp d x < 0 <;>
      simp [ainsertGo, hc, ihl, ihr]

/-- What one insertion step guarantees: the invariant holds again, the
level grew by at most one, a level-grown result is a freshly split node
(both children one level down), and the level never grows when the tree
had no high-side horizontal link at its root. -/
def InsRes (t u : ATree α) : Prop :=
  Inv u ∧
  (lvl u = lvl t ∨
    (lvl u = lvl t + 1 ∧ lvl (llink u) + 1 = lvl u ∧ lvl (rlink u) + 1 = lvl u)) ∧
  (lvl (rlink t) < lvl t → lvl u = lvl t)

/-- Rebuilding one ancestor after the insertion descended into its high
child: the `skew; split` pair restores the invariant. -/
theorem ins_right_step {lv : Nat} {d : α} {l r r' : ATree α}
    (hIl : Inv l) (hIr' : Inv r') (hl : lvl l + 1 = lv)
    (hr : lvl r + 1 = lv ∨ lvl r = lv) (hrr : lvl (rlink r) < lv)
    (hsh : lvl r' = lvl r ∨
      (lvl r' = lvl r + 1 ∧ lvl (llink r') + 1 = lvl r' ∧ lvl (rlink r') + 1 = lvl r'))
    (hng : lvl (rlink r) < lvl r → lvl r' = lvl r) :
    InsRes (ATree.node lv d l r) (split (skew (ATree.node lv d l r'))) := by
  rw [skew_noop (by omega : lvl l ≠ lv)]
  have hr'le : lvl r' ≤ lv := by
    rcases hsh with h | ⟨h, -, -⟩
    · omega
    · rcases hr with h2 | h2
      · omega
      · exact absurd (hng (by omega)) (by omega)
  by_cases hA : lvl (rlink r') = lv
  · -- the split at this ancestor fires
    have hle : lvl (rlink r') ≤ lvl r' := inv_rlink_le hIr'
    have hr'lv : lvl r' = lv := by omega
    rcases r' with _ | ⟨rlv', rd', rl', rr'⟩
    · simp at hr'lv; omega
    · simp only [lvl_node] at hr'lv
      obtain ⟨hIrl', hIrr', hrl'1, hrr'2, hrr'3⟩ := hIr'
      simp only [rlink_node, lvl_node] at hA hle
      rw [split_fire (by omega) hA]
      have h1 := inv_rlink_le hIrl'
      have h2 := inv_rlink_le hIrr'
      rcases hsh with hsame | ⟨hgrow, hgl, hgr⟩
      · simp only [lvl_node] at hsame
        refine ⟨⟨⟨hIl, hIrl', hl, Or.inl (show lvl rl' + 1 = lv by omega),
          show lvl (rlink rl') < lv by omega⟩, hIrr',
          show lv + 1 = rlv' + 1 by omega,
          Or.inl (show lvl rr' + 1 = rlv' + 1 by omega),
          show lvl (rlink rr') < rlv' + 1 by omega⟩,
          Or.inr ⟨show rlv' + 1 = lv + 1 by omega, show lv + 1 = rlv' + 1 by omega,
            show lvl rr' + 1 = rlv' + 1 by omega⟩, ?_⟩
        intro hlt
        simp only [rlink_node, lvl_node] at hlt
        exact absurd hsame (by omega)
      · -- a freshly grown child has no high horizontal: the split cannot fire
        simp only [rlink_node, lvl_node] at hgr
        exact absurd hgr (by omega)
  · rw [split_noop hA]
    have hle : lvl (rlink r') ≤ lvl r' := inv_rlink_le hIr'
    refine ⟨⟨hIl, hIr', hl, ?_, ?_⟩, Or.inl rfl, fun _ => rfl⟩
    · show lvl r' + 1 = lv ∨ lvl r' = lv
      rcases hsh with h | ⟨h, -, -⟩ <;> omega
    · show lvl (rlink r') < lv
      omega

/-- Rebuilding one ancestor after the insertion descended into its low
child. -/
theorem ins_left_step {lv : Nat} {d : α} {l r l' : ATree α}
    (hIl' : Inv l') (hIr : Inv r) (hl : lvl l + 1 = lv)
    (hr : lvl r + 1 = lv ∨ lvl r = lv) (hrr : lvl (rlink r) < lv)
    (hsh : lvl l' = lvl l ∨
      (lvl l' = lvl l + 1 ∧ lvl (llink l') + 1 = lvl l' ∧ lvl (rlink l') + 1 = lvl l')) :
    InsRes (ATree.node lv d l r) (split (skew (ATree.node lv d l' r))) := by
  rcases hsh with hsame | ⟨hgrow, hgl, hgr⟩
  · rw [skew_noop (by omega : lvl l' ≠ lv)]
    rw [split_noop (by omega : lvl (rlink r) ≠ lv)]
    exact ⟨⟨hIl', hIr, by omega, hr, hrr⟩, Or.inl rfl, fun _ => rfl⟩
  · -- the grown low child is horizontal: the skew fires
    have hl'lv : lvl l' = lv := by omega
    rcases l' with _ | ⟨llv', ld', ll', lr'⟩
    · simp at hl'lv; omega
    · simp only [lvl_node] at hl'lv
      obtain ⟨hIll', hIlr', hll'1, hlr'2, hlr'3⟩ := hIl'
      simp only [llink_node, rlink_node, lvl_node] at hgl hgr
      rw [show (ATree.node lv d (ATree.node llv' ld' ll' lr') r) =
        (ATree.node lv d (ATree.node lv ld' ll' lr') r) by rw [hl'lv]]
      rw [skew_fire (by omega)]
      have h1 := inv_rlink_le hIlr'
      by_cases hrlv : lvl r = lv
      · -- two horizontals in a row: the split fires and raises the level
        rcases r with _ | ⟨rv, rd, rl, rr⟩
        · simp at hrlv; omega
        · simp only [lvl_node] at hrlv
          simp only [rlink_node] at hrr
          rw [show (ATree.node lv ld' ll' (ATree.node lv d lr' (ATree.node rv rd rl rr))) =
            (ATree.node lv ld' ll' (ATree.node lv d lr' (ATree.node lv rd rl rr)))
            by rw [hrlv]]
          rw [split_fire (by omega) (by simp)]
          obtain ⟨hIrl, hIrr, hrl1, hrr2, hrr3⟩ := hIr
          refine ⟨⟨⟨hIll', hIlr', show lvl ll' + 1 = lv by omega,
            Or.inl (show lvl lr' + 1 = lv by omega),
            show lvl (rlink lr') < lv by omega⟩,
            ⟨hIrl, hIrr, show lvl rl + 1 = lv by omega, ?hc4, ?hc5⟩,
            show lv + 1 = lv + 1 from rfl,
            Or.inl (show lv + 1 = lv + 1 from rfl),
            show lvl (rlink (ATree.node lv rd rl rr)) < lv + 1 by
              simp only [rlink_node]; omega⟩,
            Or.inr ⟨show lv + 1 = lv + 1 from rfl, show lv + 1 = lv + 1 from rfl,
              show lvl (ATree.node lv rd rl rr) + 1 = lv + 1 by simp⟩, ?_⟩
          case hc4 => show lvl rr + 1 = lv ∨ lvl rr = lv; omega
          case hc5 => show lvl (rlink rr) < lv; omega
          intro hlt
          simp only [rlink_node, lvl_node] at hlt
          exact absurd hrlv (by omega)
      · rw [split_noop (show lvl (rlink (ATree.node lv d lr' r)) ≠ lv by
          simp only [rlink_node]; omega)]
        refine ⟨⟨hIll', ⟨hIlr', hIr, show lvl lr' + 1 = lv by omega,
          Or.inl (show lvl r + 1 = lv by omega), hrr⟩,
          show lvl ll' + 1 = lv by omega,
          Or.inr (show lvl (ATree.node lv d lr' r) = lv from rfl),
          show lvl (rlink (ATree.node lv d lr' r)) < lv by
            simp only [rlink_node]; omega⟩,
          Or.inl rfl, fun _ => rfl⟩

theorem insT_spec (cmp : α → α → Int) (x : α) :
    ∀ t : ATree α, Inv t → InsRes t (insT cmp x t) := by
  intro t
  induction t with
  | nil =>
    intro _
    exact ⟨⟨trivial, trivial, by simp, Or.inl (by simp), by simp⟩,
      Or.inr ⟨rfl, rfl, rfl⟩, by simp⟩
  | node lv d l r ihl ihr =>
    intro hInv
    obtain ⟨hIl, hIr, hl, hr, hrr⟩ := hInv
    by_cases hc : cmp d x < 0
    · obtain ⟨hIr', hsh, hng⟩ := ihr hIr
      simp only [insT, if_pos hc]
      exact ins_right_step hIl hIr' hl hr hrr hsh hng
    · obtain ⟨hIl', hsh, -⟩ := ihl hIl
      simp only [insT, if_neg hc]
      exact ins_left_step hIl' hIr hl hr hrr hsh

/-! ### Erase: the fix-up lemmas -/

@[simp] theorem onR_nil (f : ATree α → ATree α) : onR f ATree.nil = ATree.nil := rfl

@[simp] theorem onR_node (f : ATree α → ATree α) (lv : Nat) (d : α) (l r : ATree α) :
    onR f (ATree.node lv d l r) = ATree.node lv d l (f r) := rfl

@[simp] theorem setLvl_node (n lv : Nat) (d : α) (l r : ATree α) :
    setLvl n (ATree.node lv d l r) = ATree.node n d l r := rfl

/-- Under the invariant, `split` is the identity: no two consecutive
high-side horizontal links exist. -/
theorem split_of_inv {t : ATree α} (h : Inv t) : split t = t := by
  cases t with
  | nil => rfl
  | node lv d l r =>
    cases r with
    | nil => rfl
    | node rlv rd rl rr =>
      obtain ⟨-, -, -, -, h5⟩ := h
      simp only [rlink_node] at h5
      simp only [split, if_neg (show ¬(lvl rr = lv ∧ lv ≠ 0) by omega)]

theorem rebalance_noop {lv : Nat} {d : α} {l r : ATree α}
    (h : ¬(lvl l < lv - 1 ∨ lvl r < lv - 1)) :
    rebalance (ATree.node lv d l r) = ATree.node lv d l r := by
  simp only [rebalance, if_neg h]

theorem rebalance_fire {lv : Nat} {d : α} {l r : ATree α}
    (h : lvl l < lv - 1 ∨ lvl r < lv - 1) :
    rebalance (ATree.node lv d l r) =
      onR split (split (onR (onR skew) (onR skew (skew
        (ATree.node (lv - 1) d l (if lv - 1 < lvl r then setLvl (lv - 1) r else r)))))) := by
  simp only [rebalance, if_pos h]

/-- What one erase step guarantees at a subtree of level `lv` whose high
child had level `hi` before the step: the invariant holds again, the
level dropped by at most one, and a same-level result with a high
horizontal link is possible only if the subtree already had one. -/
def DelRes (lv hi : Nat) (u : ATree α) : Prop :=
  Inv u ∧ (lvl u = lv ∨ lvl u + 1 = lv) ∧
  (lvl u = lv → lvl (rlink u) = lv → hi = lv)

/-- The erase fix-up restores the invariant at an ancestor whose LOW
subtree was erased from (its level may have dropped by one; the high
subtree is untouched and satisfies the ancestor's invariant clauses). -/
theorem rebal_left {lv : Nat} {d : α} {l r : ATree α}
    (hIl : Inv l) (hIr : Inv r)
    (hl : lvl l + 1 = lv ∨ lvl l + 2 = lv)
    (hr : lvl r + 1 = lv ∨ lvl r = lv)
    (hrr : lvl (rlink r) < lv) :
    DelRes lv (lvl r) (rebalance (ATree.node lv d l r)) := by
  rcases hl with hl0 | hl1
  · -- the low child's level did not drop: the fix-up does not fire
    rw [rebalance_noop (by omega)]
    exact ⟨⟨hIl, hIr, hl0, hr, hrr⟩, Or.inl rfl, fun _ h2 => by simpa using h2⟩
  · -- genuine drop: lv ≥ 2 and the fix-up fires
    have hlv2 : 2 ≤ lv := by omega
    rw [rebalance_fire (Or.inl (by omega))]
    rcases hr with hra | hrb
    · -- the high child was one level down: no cap
      rcases r with _ | ⟨rv, rd, rl, rr⟩
      · simp only [lvl_nil] at hra; omega
      · simp only [lvl_node] at hra hrr
        simp only [rlink_node] at hrr
        rw [if_neg (show ¬(lv - 1 < lvl (ATree.node rv rd rl rr)) by
          simp only [lvl_node]; omega)]
        obtain ⟨hIrl, hIrr, hr1, hr2, hr3⟩ := hIr
        rw [skew_noop (show lvl l ≠ lv - 1 by omega)]
        simp only [onR_node]
        rw [skew_of_inv (show Inv (ATree.node rv rd rl rr) from
          ⟨hIrl, hIrr, hr1, hr2, by simpa using hr3⟩)]
        simp only [onR_node]
        rw [skew_of_inv hIrr]
        rcases hr2 with hr2a | hr2b
        · -- no high horizontal inside: neither split fires
          rw [split_noop (show lvl (rlink (ATree.node rv rd rl rr)) ≠ lv - 1 by
            simp only [rlink_node]; omega)]
          simp only [onR_node]
          rw [split_of_inv (show Inv (ATree.node rv rd rl rr) from
            ⟨hIrl, hIrr, hr1, Or.inl hr2a, by simpa using hr3⟩)]
          refine ⟨⟨hIl, ⟨hIrl, hIrr, hr1, Or.inl hr2a, by simpa using hr3⟩,
            show lvl l + 1 = lv - 1 by omega,
            Or.inr (show rv = lv - 1 by omega),
            show lvl rr < lv - 1 by omega⟩,
            Or.inr (show lv - 1 + 1 = lv by omega), ?_⟩
          intro h1 _
          simp only [lvl_node] at h1 ⊢
          omega
        · -- single high horizontal inside: the first split fires
          rw [split_fire (show lv - 1 ≠ 0 by omega) (show lvl rr = lv - 1 by omega)]
          simp only [onR_node]
          rw [split_of_inv hIrr]
          have h4 := inv_rlink_le hIrl
          refine ⟨⟨⟨hIl, hIrl, show lvl l + 1 = lv - 1 by omega,
            Or.inl (show lvl rl + 1 = lv - 1 by omega),
            show lvl (rlink rl) < lv - 1 by omega⟩, hIrr,
            show lv - 1 + 1 = rv + 1 by omega,
            Or.inl (show lvl rr + 1 = rv + 1 by omega),
            show lvl (rlink rr) < rv + 1 by omega⟩,
            Or.inl (show rv + 1 = lv by omega), ?_⟩
          intro _ h2
          simp only [rlink_node, lvl_node] at h2 ⊢
          omega
    · -- the high child was horizontal: its level is capped down
      rcases r with _ | ⟨rv, rd, rl, rr⟩
      · simp only [lvl_nil] at hrb; omega
      · simp only [lvl_node] at hrb
        simp only [rlink_node, lvl_node] at hrr
        rw [if_pos (show lv - 1 < lvl (ATree.node rv rd rl rr) by
          simp only [lvl_node]; omega)]
        simp only [setLvl_node]
        obtain ⟨hIrl, hIrr, hr1, hr2, hr3⟩ := hIr
        have hrrlv : lvl rr + 1 = lv := by omega
        rw [skew_noop (show lvl l ≠ lv - 1 by omega)]
        simp only [onR_node]
        -- the cap makes the high child's low link horizontal: the second skew fires
        rcases rl with _ | ⟨alv, aD, Al, Ar⟩
        · simp only [lvl_nil] at hr1; omega
        · simp only [lvl_node] at hr1
          have halv : alv = lv - 1 := by omega
          subst halv
          rw [skew_fire (show lv - 1 ≠ 0 by omega)]
          simp only [onR_node]
          obtain ⟨hIAl, hIAr, ha1, ha2, ha3⟩ := hIrl
          rcases ha2 with ha2a | ha2b
          · -- the third skew does not fire
            rw [skew_noop (show lvl Ar ≠ lv - 1 by omega)]
            -- the first split fires on the horizontal pair built by the skew
            rw [split_fire (show lv - 1 ≠ 0 by omega)
              (show lvl (ATree.node (lv - 1) rd Ar rr) = lv - 1 from rfl)]
            simp only [onR_node]
            by_cases hbeta : lvl (rlink rr) = lv - 1
            · -- the second split fires as well
              rcases rr with _ | ⟨bv, bD, Bl, Br⟩
              · simp only [rlink_nil, lvl_nil] at hbeta; omega
              · simp only [lvl_node] at hrrlv
                have hbv : bv = lv - 1 := by omega
                subst hbv
                simp only [rlink_node] at hbeta hr3
                obtain ⟨hIBl, hIBr, hb1, hb2, hb3⟩ := hIrr
                rw [split_fire (show lv - 1 ≠ 0 by omega)
                  (show lvl Br = lv - 1 by omega)]
                have h4 := inv_rlink_le hIAl
                have h5 := inv_rlink_le hIBl
                refine ⟨⟨⟨hIl, hIAl, show lvl l + 1 = lv - 1 by omega,
                  Or.inl (show lvl Al + 1 = lv - 1 by omega),
                  show lvl (rlink Al) < lv - 1 by omega⟩,
                  ⟨⟨hIAr, hIBl, show lvl Ar + 1 = lv - 1 by omega,
                    Or.inl (show lvl Bl + 1 = lv - 1 by omega),
                    show lvl (rlink Bl) < lv - 1 by omega⟩, hIBr,
                    show lv - 1 + 1 = lv - 1 + 1 from rfl,
                    Or.inl (show lvl Br + 1 = lv - 1 + 1 by omega),
                    show lvl (rlink Br) < lv - 1 + 1 by omega⟩,
                  show lv - 1 + 1 = lv - 1 + 1 from rfl,
                  Or.inr (show lv - 1 + 1 = lv - 1 + 1 from rfl),
                  show lvl Br < lv - 1 + 1 by omega⟩,
                  Or.inl (show lv - 1 + 1 = lv by omega),
                  fun _ _ => hrb⟩
            · -- the second split does not fire
              rw [split_noop (show lvl (rlink rr) ≠ lv - 1 from hbeta)]
              have h4 := inv_rlink_le hIAl
              refine ⟨⟨⟨hIl, hIAl, show lvl l + 1 = lv - 1 by omega,
                Or.inl (show lvl Al + 1 = lv - 1 by omega),
                show lvl (rlink Al) < lv - 1 by omega⟩,
                ⟨hIAr, hIrr, show lvl Ar + 1 = lv - 1 by omega,
                  Or.inr (show lvl rr = lv - 1 by omega),
                  show lvl (rlink rr) < lv - 1 by omega⟩,
                show lv - 1 + 1 = lv - 1 + 1 from rfl,
                Or.inl (show lv - 1 + 1 = lv - 1 + 1 from rfl),
                show lvl rr < lv - 1 + 1 by omega⟩,
                Or.inl (show lv - 1 + 1 = lv by omega),
                fun _ _ => hrb⟩
          · -- the third skew fires
            rcases Ar with _ | ⟨ev, eD, El, Er⟩
            · simp only [lvl_nil] at ha2b; omega
            · simp only [lvl_node] at ha2b
              have hev : ev = lv - 1 := by omega
              subst hev
              simp only [rlink_node] at ha3
              obtain ⟨hIEl, hIEr, he1, he2, he3⟩ := hIAr
              rw [skew_fire (show lv - 1 ≠ 0 by omega)]
              rw [split_fire (show lv - 1 ≠ 0 by omega)
                (show lvl (ATree.node (lv - 1) eD El
                  (ATree.node (lv - 1) rd Er rr)) = lv - 1 from rfl)]
              simp only [onR_node]
              rw [split_fire (show lv - 1 ≠ 0 by omega)
                (show lvl rr = lv - 1 by omega)]
              have h4 := inv_rlink_le hIAl
              have h5 := inv_rlink_le hIEr
              refine ⟨⟨⟨hIl, hIAl, show lvl l + 1 = lv - 1 by omega,
                Or.inl (show lvl Al + 1 = lv - 1 by omega),
                show lvl (rlink Al) < lv - 1 by omega⟩,
                ⟨⟨hIEl, hIEr, show lvl El + 1 = lv - 1 by omega,
                  Or.inl (show lvl Er + 1 = lv - 1 by omega),
                  show lvl (rlink Er) < lv - 1 by omega⟩, hIrr,
                  show lv - 1 + 1 = lv - 1 + 1 from rfl,
                  Or.inl (show lvl rr + 1 = lv - 1 + 1 by omega),
                  show lvl (rlink rr) < lv - 1 + 1 by omega⟩,
                show lv - 1 + 1 = lv - 1 + 1 from rfl,
                Or.inr (show lv - 1 + 1 = lv - 1 + 1 from rfl),
                show lvl rr < lv - 1 + 1 by omega⟩,
                Or.inl (show lv - 1 + 1 = lv by omega),
                fun _ _ => hrb⟩

/-- The erase fix-up restores the invariant at an ancestor whose HIGH
subtree was erased from (its level may have dropped by one; when it kept
its level, the erase step guarantees it has no high horizontal link
unless the subtree may keep it, per `DelRes`). -/
theorem rebal_right {lv : Nat} {d : α} {l r' : ATree α}
    (hIl : Inv l) (hIr' : Inv r')
    (hl : lvl l + 1 = lv)
    (hr : lvl r' = lv ∨ lvl r' + 1 = lv ∨ lvl r' + 2 = lv)
    (hsn : lvl r' = lv → lvl (rlink r') < lv) :
    DelRes lv (lvl r') (rebalance (ATree.node lv d l r')) := by
  rcases hr with hr0 | hr0 | hr1
  · -- level kept: the fix-up does not fire
    rw [rebalance_noop (by omega)]
    exact ⟨⟨hIl, hIr', hl, Or.inr hr0, hsn hr0⟩, Or.inl rfl,
      fun _ h2 => by simpa using h2⟩
  · -- one below: the fix-up does not fire
    rw [rebalance_noop (by omega)]
    have h4 := inv_rlink_le hIr'
    exact ⟨⟨hIl, hIr', hl, Or.inl hr0, by omega⟩, Or.inl rfl,
      fun _ h2 => by simpa using h2⟩
  · -- dropped two below the ancestor: the fix-up fires
    have hlv2 : 2 ≤ lv := by omega
    have h4 := inv_rlink_le hIr'
    rw [rebalance_fire (Or.inr (by omega))]
    rw [if_neg (show ¬(lv - 1 < lvl r') by omega)]
    rcases l with _ | ⟨flv, fD, fl, fr⟩
    · simp only [lvl_nil] at hl; omega
    · simp only [lvl_node] at hl
      have hflv : flv = lv - 1 := by omega
      subst hflv
      obtain ⟨hIfl, hIfr, hf1, hf2, hf3⟩ := hIl
      -- demoting makes the low child horizontal: the first skew fires
      rw [skew_fire (show lv - 1 ≠ 0 by omega)]
      simp only [onR_node]
      rcases hf2 with hf2a | hf2b
      · -- the second skew does not fire
        rw [skew_noop (show lvl fr ≠ lv - 1 by omega)]
        simp only [onR_node]
        rw [skew_of_inv hIr']
        rw [split_noop (show lvl (rlink (ATree.node (lv - 1) d fr r')) ≠ lv - 1 by
          simp only [rlink_node]; omega)]
        simp only [onR_node]
        rw [split_noop (show lvl (rlink r') ≠ lv - 1 by omega)]
        refine ⟨⟨hIfl, ⟨hIfr, hIr', show lvl fr + 1 = lv - 1 by omega,
          Or.inl (show lvl r' + 1 = lv - 1 by omega),
          show lvl (rlink r') < lv - 1 by omega⟩,
          show lvl fl + 1 = lv - 1 by omega,
          Or.inr (show lv - 1 = lv - 1 from rfl),
          show lvl (rlink (ATree.node (lv - 1) d fr r')) < lv - 1 by
            simp only [rlink_node]; omega⟩,
          Or.inr (show lv - 1 + 1 = lv by omega), ?_⟩
        intro h1 _
        simp only [lvl_node] at h1
        omega
      · -- the low child had its own high horizontal: the second skew fires
        rcases fr with _ | ⟨gv, gD, Gl, Gr⟩
        · simp only [lvl_nil] at hf2b; omega
        · simp only [lvl_node] at hf2b
          subst hf2b
          simp only [rlink_node] at hf3
          obtain ⟨hIGl, hIGr, hg1, hg2, hg3⟩ := hIfr
          have hGr : lvl Gr + 1 = lv - 1 := by omega
          rw [skew_fire (show lv - 1 ≠ 0 by omega)]
          simp only [onR_node]
          rw [skew_noop (show lvl Gr ≠ lv - 1 by omega)]
          rw [split_fire (show lv - 1 ≠ 0 by omega)
            (show lvl (ATree.node (lv - 1) d Gr r') = lv - 1 from rfl)]
          simp only [onR_node]
          rw [split_noop (show lvl (rlink r') ≠ lv - 1 by omega)]
          refine ⟨⟨⟨hIfl, hIGl, show lvl fl + 1 = lv - 1 by omega,
            Or.inl (show lvl Gl + 1 = lv - 1 by omega),
            show lvl (rlink Gl) < lv - 1 by
              have := inv_rlink_le hIGl; omega⟩,
            ⟨hIGr, hIr', show lvl Gr + 1 = lv - 1 by omega,
              Or.inl (show lvl r' + 1 = lv - 1 by omega),
              show lvl (rlink r') < lv - 1 by omega⟩,
            show lv - 1 + 1 = lv - 1 + 1 from rfl,
            Or.inl (show lv - 1 + 1 = lv - 1 + 1 from rfl),
            show lvl (rlink (ATree.node (lv - 1) d Gr r')) < lv - 1 + 1 by
              simp only [rlink_node]; omega⟩,
            Or.inl (show lv - 1 + 1 = lv by omega), ?_⟩
          intro _ h2
          simp only [rlink_node, lvl_node] at h2
          omega

theorem removeMin_none {t : ATree α} (h : removeMin t = none) : t = ATree.nil := by
  cases t with
  | nil => rfl
  | node lv d l r =>
    rw [removeMin] at h
    cases hml : removeMin l with
    | none => rw [hml] at h; simp at h
    | some p => rw [hml] at h; simp at h

theorem inv_node_pos {lv : Nat} {d : α} {l r : ATree α}
    (h : Inv (ATree.node lv d l r)) : 1 ≤ lv := by
  obtain ⟨-, -, h3, -, -⟩ := h; omega

theorem removeMin_spec : ∀ t : ATree α, Inv t → ∀ m t', removeMin t = some (m, t') →
    DelRes (lvl t) (lvl (rlink t)) t' := by
  intro t
  induction t with
  | nil => intro _ m t' h; simp [removeMin] at h
  | node lv d l r ihl ihr =>
    intro hInv m t' h
    obtain ⟨hIl, hIr, hl, hr, hrr⟩ := hInv
    rw [removeMin] at h
    cases hml : removeMin l with
    | none =>
      rw [hml] at h
      simp only [Option.some.injEq, Prod.mk.injEq] at h
      obtain ⟨hm, ht⟩ := h
      have hlnil := removeMin_none hml
      subst hlnil
      subst ht
      simp only [lvl_nil] at hl
      refine ⟨hIr, ?_, fun h1 _ => h1⟩
      show lvl r = lv ∨ lvl r + 1 = lv
      omega
    | some p =>
      rw [hml] at h
      obtain ⟨m0, l'⟩ := p
      simp only [Option.some.injEq, Prod.mk.injEq] at h
      obtain ⟨hm, ht⟩ := h
      subst ht
      obtain ⟨hIl', hlv', -⟩ := ihl hIl m0 l' hml
      show DelRes lv (lvl r) (rebalance (ATree.node lv d l' r))
      exact rebal_left hIl' hIr (by omega) hr hrr

theorem eraseGo_spec (cmp : α → α → Int) (x : α) :
    ∀ t : ATree α, Inv t → ∀ m t', eraseGo cmp x t = some (m, t') →
    DelRes (lvl t) (lvl (rlink t)) t' := by
  intro t
  induction t with
  | nil => intro _ m t' h; simp [eraseGo] at h
  | node lv d l r ihl ihr =>
    intro hInv m t' h
    obtain ⟨hIl, hIr, hl, hr, hrr⟩ := hInv
    rw [eraseGo] at h
    by_cases hc0 : cmp d x = 0
    · rw [if_pos hc0] at h
      cases l with
      | nil =>
        simp only [isNil, if_true] at h
        simp only [Option.some.injEq, Prod.mk.injEq] at h
        obtain ⟨hm, ht⟩ := h
        subst ht
        simp only [lvl_nil] at hl
        refine ⟨hIr, ?_, fun h1 _ => h1⟩
        show lvl r = lv ∨ lvl r + 1 = lv
        omega
      | node llv ld ll lr =>
        cases r with
        | nil =>
          -- impossible under the invariant: a real low child forces lv ≥ 2,
          -- but a sentinel high child forces lv ≤ 1
          have h1 := inv_node_pos hIl
          simp only [lvl_node, lvl_nil] at hl hr
          omega
        | node rlv rd rl rr =>
          simp only [isNil, Bool.false_eq_true, if_false] at h
          cases hmr : removeMin (ATree.node rlv rd rl rr) with
          | none => exact absurd (removeMin_none hmr) (by simp)
          | some p =>
            rw [hmr] at h
            obtain ⟨m0, r''⟩ := p
            simp only [Option.map_some', Option.some.injEq, Prod.mk.injEq] at h
            obtain ⟨hm, ht⟩ := h
            subst ht
            obtain ⟨hIr'', hlv'', hc3⟩ :=
              removeMin_spec (ATree.node rlv rd rl rr) hIr m0 r'' hmr
            have h5 := inv_rlink_le hIr''
            simp only [lvl_node, rlink_node] at hlv'' hc3 hr hrr
            show DelRes lv (lvl (ATree.node rlv rd rl rr))
              (rebalance (ATree.node lv m0 (ATree.node llv ld ll lr) r''))
            obtain ⟨a, b, c⟩ := @rebal_right α lv _ _ _ hIl hIr''
              (by simpa using hl) (by omega)
              (fun hq => by
                by_cases hw : lvl (rlink r'') = lvl r''
                · have := hc3 (by omega) (by omega)
                  omega
                · omega)
            refine ⟨a, b, fun h1 h2 => ?_⟩
            have := c h1 h2
            simp only [lvl_node]
            omega
    · rw [if_neg hc0] at h
      by_cases hcl : cmp d x < 0
      · rw [if_pos hcl] at h
        cases hme : eraseGo cmp x r with
        | none => rw [hme] at h; simp at h
        | some p =>
          rw [hme] at h
          obtain ⟨m0, r'⟩ := p
          simp only [Option.map_some', Option.some.injEq, Prod.mk.injEq] at h
          obtain ⟨hm, ht⟩ := h
          subst ht
          obtain ⟨hIr', hlv', hc3⟩ := ihr hIr m0 r' hme
          have h5 := inv_rlink_le hIr'
          show DelRes lv (lvl r) (rebalance (ATree.node lv d l r'))
          obtain ⟨a, b, c⟩ := @rebal_right α lv _ _ _ hIl hIr' hl (by omega)
            (fun hq => by
              by_cases hw : lvl (rlink r') = lvl r'
              · have := hc3 (by omega) (by omega)
                omega
              · omega)
          refine ⟨a, b, fun h1 h2 => ?_⟩
          have := c h1 h2
          omega
      · rw [if_neg hcl] at h
        cases hme : eraseGo cmp x l with
        | none => rw [hme] at h; simp at h
        | some p =>
          rw [hme] at h
          obtain ⟨m0, l'⟩ := p
          simp only [Option.map_some', Option.some.injEq, Prod.mk.injEq] at h
          obtain ⟨hm, ht⟩ := h
          subst ht
          obtain ⟨hIl', hlv', -⟩ := ihl hIl m0 l' hme
          show DelRes lv (lvl r) (rebalance (ATree.node lv d l' r))
          exact rebal_left hIl' hIr (by omega) hr hrr

/-- The invariant is preserved by a successful erase at the root. -/
theorem jsw_aerase_inv (cmp : α → α → Int) (x : α) {t : ATree α} (hInv : Inv t)
    {m : α} {t' : ATree α} (h : jsw_aerase cmp x t = some (m, t')) : Inv t' := by
  cases t with
  | nil => simp [jsw_aerase] at h
  | node lv d l r =>
    obtain ⟨hIl, hIr, hl, hr, hrr⟩ := hInv
    rw [jsw_aerase] at h
    by_cases hc0 : cmp d x = 0
    · rw [if_pos hc0] at h
      by_cases hnil : isNil l ∨ isNil r
      · rw [if_pos hnil] at h
        simp only [Option.some.injEq, Prod.mk.injEq] at h
        obtain ⟨hm, ht⟩ := h
        subst ht
        exact hIr
      · rw [if_neg hnil] at h
        cases hmr : removeMin r with
        | none =>
          have := removeMin_none hmr
          subst this
          simp [isNil] at hnil
        | some p =>
          rw [hmr] at h
          obtain ⟨m0, r''⟩ := p
          simp only [Option.map_some', Option.some.injEq, Prod.mk.injEq] at h
          obtain ⟨hm, ht⟩ := h
          subst ht
          obtain ⟨hIr'', hlv'', hc3⟩ := removeMin_spec r hIr m0 r'' hmr
          have h5 := inv_rlink_le hIr''
          exact (@rebal_right α lv _ _ _ hIl hIr'' hl (by omega)
            (fun hq => by
              by_cases hw : lvl (rlink r'') = lvl r''
              · have := hc3 (by omega) (by omega)
                omega
              · omega)).1
    · rw [if_neg hc0] at h
      by_cases hcl : cmp d x < 0
      · rw [if_pos hcl] at h
        cases hme : eraseGo cmp x r with
        | none => rw [hme] at h; simp at h
        | some p =>
          rw [hme] at h
          obtain ⟨m0, r'⟩ := p
          simp only [Option.map_some', Option.some.injEq, Prod.mk.injEq] at h
          obtain ⟨hm, ht⟩ := h
          subst ht
          obtain ⟨hIr', hlv', hc3⟩ := eraseGo_spec cmp x r hIr m0 r' hme
          have h5 := inv_rlink_le hIr'
          exact (@rebal_right α lv _ _ _ hIl hIr' hl (by omega)
            (fun hq => by
              by_cases hw : lvl (rlink r') = lvl r'
              · have := hc3 (by omega) (by omega)
                omega
              · omega)).1
      · rw [if_neg hcl] at h
        cases hme : eraseGo cmp x l with
        | none => rw [hme] at h; simp at h
        | some p =>
          rw [hme] at h
          obtain ⟨m0, l'⟩ := p
          simp only [Option.map_some', Option.some.injEq, Prod.mk.injEq] at h
          obtain ⟨hm, ht⟩ := h
          subst ht
          obtain ⟨hIl', hlv', -⟩ := eraseGo_spec cmp x l hIl m0 l' hme
          exact (@rebal_left α lv _ _ _ hIl' hIr (by omega) hr hrr).1

/-- The invariant is preserved by a (successful) insertion. -/
theorem insT_inv (cmp : α → α → Int) (x : α) {t : ATree α} (h : Inv t) :
    Inv (insT cmp x t) := (insT_spec cmp x t h).1



/-! ### Elements: rotations preserve the stored multiset (in fact the
in-order list) -/

@[simp] theorem elems_nil : elems (ATree.nil : ATree α) = [] := rfl

@[simp] theorem elems_node (lv : Nat) (d : α) (l r : ATree α) :
    elems (ATree.node lv d l r) = elems l ++ d :: elems r := rfl

theorem elems_skew (t : ATree α) : elems (skew t) = elems t := by
  cases t with
  | nil => rfl
  | node lv d l r =>
    cases l with
    | nil => rfl
    | node llv ld ll lr =>
      rw [skew]
      split
      · simp [List.append_assoc]
      · rfl

theorem elems_split (t : ATree α) : elems (split t) = elems t := by
  cases t with
  | nil => rfl
  | node lv d l r =>
    cases r with
    | nil => rfl
    | node rlv rd rl rr =>
      rw [split]
      split
      · simp [List.append_assoc]
      · rfl

theorem elems_setLvl (n : Nat) (t : ATree α) : elems (setLvl n t) = elems t := by
  cases t <;> rfl

theorem elems_onR {f : ATree α → ATree α} (hf : ∀ s, elems (f s) = elems s)
    (t : ATree α) : elems (onR f t) = elems t := by
  cases t with
  | nil => rfl
  | node lv d l r => simp [onR, hf]

theorem elems_rebalance (t : ATree α) : elems (rebalance t) = elems t := by
  cases t with
  | nil => rfl
  | node lv d l r =>
    rw [rebalance]
    split
    · rw [elems_onR elems_split, elems_split,
        elems_onR (elems_onR elems_skew), elems_onR elems_skew, elems_skew]
      simp only [elems_node]
      split
      · rw [elems_setLvl]
      · rfl
    · rfl

theorem elems_insT (cmp : α → α → Int) (x : α) :
    ∀ t : ATree α, List.Perm (elems (insT cmp x t)) (x :: elems t) := by
  intro t
  induction t with
  | nil => simp [insT]
  | node lv d l r ihl ihr =>
    rw [insT]
    split
    · rw [elems_split, elems_skew]
      simp only [elems_node]
      refine ((ihr.cons d).append_left (elems l)).trans ?_
      simpa using @List.perm_middle _ x (elems l ++ [d]) (elems r)
    · rw [elems_split, elems_skew]
      simp only [elems_node]
      exact ((ihl.append_right (d :: elems r)).trans (by simp))

theorem elems_removeMin : ∀ t : ATree α, ∀ m t', removeMin t = some (m, t') →
    elems t = m :: elems t' := by
  intro t
  induction t with
  | nil => intro m t' h; simp [removeMin] at h
  | node lv d l r ihl ihr =>
    intro m t' h
    rw [removeMin] at h
    cases hml : removeMin l with
    | none =>
      rw [hml] at h
      simp only [Option.some.injEq, Prod.mk.injEq] at h
      obtain ⟨hm, ht⟩ := h
      subst hm; subst ht
      rw [removeMin_none hml]
      rfl
    | some p =>
      rw [hml] at h
      obtain ⟨m0, l'⟩ := p
      simp only [Option.some.injEq, Prod.mk.injEq] at h
      obtain ⟨hm, ht⟩ := h
      subst hm; subst ht
      rw [elems_rebalance]
      simp only [elems_node, ihl m0 l' hml]
      rfl

theorem elems_eraseGo (cmp : α → α → Int) (x : α) :
    ∀ t : ATree α, ∀ m t', eraseGo cmp x t = some (m, t') →
    List.Perm (elems t) (m :: elems t') := by
  intro t
  induction t with
  | nil => intro m t' h; simp [eraseGo] at h
  | node lv d l r ihl ihr =>
    intro m t' h
    rw [eraseGo] at h
    by_cases hc0 : cmp d x = 0
    · rw [if_pos hc0] at h
      cases l with
      | nil =>
        simp only [isNil, if_true] at h
        simp only [Option.some.injEq, Prod.mk.injEq] at h
        obtain ⟨hm, ht⟩ := h
        subst hm; subst ht
        simp
      | node llv ld ll lr =>
        cases r with
        | nil =>
          simp only [isNil, Bool.false_eq_true, if_false, if_true] at h
          simp only [Option.some.injEq, Prod.mk.injEq] at h
          obtain ⟨hm, ht⟩ := h
          subst hm; subst ht
          simpa using List.perm_append_singleton d (elems (ATree.node llv ld ll lr))
        | node rlv rd rl rr =>
          simp only [isNil, Bool.false_eq_true, if_false] at h
          cases hmr : removeMin (ATree.node rlv rd rl rr) with
          | none => exact absurd (removeMin_none hmr) (by simp)
          | some p =>
            rw [hmr] at h
            obtain ⟨m0, r''⟩ := p
            simp only [Option.map_some', Option.some.injEq, Prod.mk.injEq] at h
            obtain ⟨hm, ht⟩ := h
            subst hm; subst ht
            rw [elems_rebalance]
            have hrm := elems_removeMin (ATree.node rlv rd rl rr) m0 r'' hmr
            show List.Perm
              (elems (ATree.node llv ld ll lr) ++ d :: elems (ATree.node rlv rd rl rr))
              (d :: (elems (ATree.node llv ld ll lr) ++ m0 :: elems r''))
            rw [hrm]
            exact List.perm_middle
    · rw [if_neg hc0] at h
      by_cases hcl : cmp d x < 0
      · rw [if_pos hcl] at h
        cases hme : eraseGo cmp x r with
        | none => rw [hme] at h; simp at h
        | some p =>
          rw [hme] at h
          obtain ⟨m0, r'⟩ := p
          simp only [Option.map_some', Option.some.injEq, Prod.mk.injEq] at h
          obtain ⟨hm, ht⟩ := h
          subst hm; subst ht
          rw [elems_rebalance]
          simp only [elems_node]
          refine (((ihr m0 r' hme).cons d).append_left (elems l)).trans ?_
          simpa using @List.perm_middle _ m0 (elems l ++ [d]) (elems r')
      · rw [if_neg hcl] at h
        cases hme : eraseGo cmp x l with
        | none => rw [hme] at h; simp at h
        | some p =>
          rw [hme] at h
          obtain ⟨m0, l'⟩ := p
          simp only [Option.map_some', Option.some.injEq, Prod.mk.injEq] at h
          obtain ⟨hm, ht⟩ := h
          subst hm; subst ht
          rw [elems_rebalance]
          simp only [elems_node]
          exact ((ihl m0 l' hme).append_right (d :: elems r)).trans (by simp)

/-- A successful erase at the root removes exactly one stored element —
the released one.  The invariant is needed: it rules out the
low-child-discarding root splice (claim C10). -/
theorem elems_aerase (cmp : α → α → Int) (x : α) {t : ATree α} (hInv : Inv t)
    {m : α} {t' : ATree α} (h : jsw_aerase cmp x t = some (m, t')) :
    List.Perm (elems t) (m :: elems t') := by
  cases t with
  | nil => simp [jsw_aerase] at h
  | node lv d l r =>
    obtain ⟨hIl, hIr, hl, hr, hrr⟩ := hInv
    rw [jsw_aerase] at h
    by_cases hc0 : cmp d x = 0
    · rw [if_pos hc0] at h
      by_cases hnil : isNil l ∨ isNil r
      · rw [if_pos hnil] at h
        simp only [Option.some.injEq, Prod.mk.injEq] at h
        obtain ⟨hm, ht⟩ := h
        subst hm; subst ht
        cases l with
        | nil => simp
        | node llv ld ll lr =>
          -- impossible: a real low child with a sentinel high child
          cases r with
          | node rlv rd rl rr => simp [isNil] at hnil
          | nil =>
            have h1 := inv_node_pos hIl
            simp only [lvl_node, lvl_nil] at hl hr
            omega
      · rw [if_neg hnil] at h
        cases hmr : removeMin r with
        | none =>
          have := removeMin_none hmr
          subst this
          simp [isNil] at hnil
        | some p =>
          rw [hmr] at h
          obtain ⟨m0, r''⟩ := p
          simp only [Option.map_some', Option.some.injEq, Prod.mk.injEq] at h
          obtain ⟨hm, ht⟩ := h
          subst hm; subst ht
          rw [elems_rebalance]
          simp only [elems_node]
          rw [elems_removeMin r m0 r'' hmr]
          exact List.perm_middle
    · rw [if_neg hc0] at h
      by_cases hcl : cmp d x < 0
      · rw [if_pos hcl] at h
        cases hme : eraseGo cmp x r with
        | none => rw [hme] at h; simp at h
        | some p =>
          rw [hme] at h
          obtain ⟨m0, r'⟩ := p
          simp only [Option.map_some', Option.some.injEq, Prod.mk.injEq] at h
          obtain ⟨hm, ht⟩ := h
          subst hm; subst ht
          rw [elems_rebalance]
          simp only [elems_node]
          refine (((elems_eraseGo cmp x r m0 r' hme).cons d).append_left (elems l)).trans ?_
          simpa using @List.perm_middle _ m0 (elems l ++ [d]) (elems r')
      · rw [if_neg hcl] at h
        cases hme : eraseGo cmp x l with
        | none => rw [hme] at h; simp at h
        | some p =>
          rw [hme] at h
          obtain ⟨m0, l'⟩ := p
          simp only [Option.map_some', Option.some.injEq, Prod.mk.injEq] at h
          obtain ⟨hm, ht⟩ := h
          subst hm; subst ht
          rw [elems_rebalance]
          simp only [elems_node]
          exact ((elems_eraseGo cmp x l m0 l' hme).append_right (d :: elems r)).trans (by simp)

/-! ### The user comparison: a sign-consistent total preorder

The C contract for `cmp_f` (a `strcmp`-style three-way comparison) is
captured by two axioms on signs: antisymmetry of the sign and
transitivity of "not greater". -/

structure CmpOK (cmp : α → α → Int) : Prop where
  flip : ∀ a b, cmp a b < 0 ↔ 0 < cmp b a
  le_trans : ∀ a b c, cmp a b ≤ 0 → cmp b c ≤ 0 → cmp a c ≤ 0

theorem CmpOK.self {cmp : α → α → Int} (h : CmpOK cmp) (a : α) : cmp a a = 0 := by
  have := h.flip a a; omega

theorem CmpOK.le_flip {cmp : α → α → Int} (h : CmpOK cmp) (a b : α) :
    cmp a b ≤ 0 ↔ 0 ≤ cmp b a := by
  have := h.flip a b; have := h.flip b a; omega

theorem CmpOK.eq_symm {cmp : α → α → Int} (h : CmpOK cmp) {a b : α}
    (e : cmp a b = 0) : cmp b a = 0 := by
  have := h.flip a b; have := h.flip b a; omega

theorem CmpOK.eq_trans {cmp : α → α → Int} (h : CmpOK cmp) {a b e : α}
    (e1 : cmp a b = 0) (e2 : cmp b e = 0) : cmp a e = 0 := by
  have h1 := h.le_trans a b e (by omega) (by omega)
  have h2 := h.le_trans e b a (by have := h.flip b e; omega) (by have := h.flip a b; omega)
  have h3 := h.flip a e
  have h4 := h.flip e a
  omega

/-! ### The search-order invariant -/

/-- The (weak) binary-search-tree property that `jsw_ainsert` maintains:
everything low orders not-after the node's element, everything high
orders not-before it.  (It is weak because ties are routed low by
insertion but equal elements can move to the high side under rotations;
this suffices for the find/erase searches.) -/
def BST (cmp : α → α → Int) : ATree α → Prop
  | .nil => True
  | .node _ d l r =>
    BST cmp l ∧ BST cmp r ∧ (∀ y ∈ elems l, 0 ≤ cmp d y) ∧ (∀ y ∈ elems r, cmp d y ≤ 0)

theorem bst_nil (cmp : α → α → Int) : BST cmp (ATree.nil : ATree α) := trivial

theorem bst_node_iff (cmp : α → α → Int) (lv : Nat) (d : α) (l r : ATree α) :
    BST cmp (ATree.node lv d l r) ↔
      BST cmp l ∧ BST cmp r ∧ (∀ y ∈ elems l, 0 ≤ cmp d y) ∧
        (∀ y ∈ elems r, cmp d y ≤ 0) := Iff.rfl

theorem bst_skew {cmp : α → α → Int} (hc : CmpOK cmp) {t : ATree α}
    (h : BST cmp t) : BST cmp (skew t) := by
  cases t with
  | nil => trivial
  | node lv d l r =>
    cases l with
    | nil => exact h
    | node llv ld ll lr =>
      rw [skew]
      split
      · obtain ⟨⟨hBll, hBlr, hc1, hc2⟩, hBr, hll, hlr⟩ := h
        refine ⟨hBll, ⟨hBlr, hBr, ?_, hlr⟩, ?_, ?_⟩
        · intro y hy
          exact hll y (by simp [hy])
        · intro y hy
          exact hc1 y hy
        · intro y hy
          simp only [elems_node, List.mem_append, List.mem_cons] at hy
          rcases hy with hy | rfl | hy
          · exact hc2 y hy
          · exact (hc.le_flip ld y).mpr (hll ld (by simp))
          · have hd : cmp ld d ≤ 0 := (hc.le_flip ld d).mpr (hll ld (by simp))
            exact hc.le_trans ld d y hd (hlr y hy)
      · exact h

theorem bst_split {cmp : α → α → Int} (hc : CmpOK cmp) {t : ATree α}
    (h : BST cmp t) : BST cmp (split t) := by
  cases t with
  | nil => trivial
  | node lv d l r =>
    cases r with
    | nil => exact h
    | node rlv rd rl rr =>
      rw [split]
      split
      · obtain ⟨hBl, ⟨hBrl, hBrr, hc1, hc2⟩, hll, hlr⟩ := h
        have hdr : cmp d rd ≤ 0 := hlr rd (by simp)
        refine ⟨⟨hBl, hBrl, hll, ?_⟩, hBrr, ?_, ?_⟩
        · intro y hy
          exact hlr y (by simp [hy])
        · intro y hy
          simp only [elems_node, List.mem_append, List.mem_cons] at hy
          rcases hy with hy | rfl | hy
          · have h1 : cmp y d ≤ 0 := (hc.le_flip y d).mpr (hll y hy)
            have h2 : cmp y rd ≤ 0 := hc.le_trans y d rd h1 hdr
            exact (hc.le_flip y rd).mp h2
          · exact (hc.le_flip y rd).mp hdr
          · exact hc1 y hy
        · intro y hy
          exact hc2 y hy
      · exact h

theorem bst_setLvl {cmp : α → α → Int} (n : Nat) {t : ATree α}
    (h : BST cmp t) : BST cmp (setLvl n t) := by
  cases t with
  | nil => trivial
  | node lv d l r => exact h

theorem bst_onR {cmp : α → α → Int} {f : ATree α → ATree α}
    (hf : ∀ s, BST cmp s → BST cmp (f s)) (hfe : ∀ s, elems (f s) = elems s)
    {t : ATree α} (h : BST cmp t) : BST cmp (onR f t) := by
  cases t with
  | nil => trivial
  | node lv d l r =>
    obtain ⟨hBl, hBr, h1, h2⟩ := h
    refine ⟨hBl, hf r hBr, h1, ?_⟩
    intro y hy
    rw [hfe r] at hy
    exact h2 y hy

theorem bst_rebalance {cmp : α → α → Int} (hc : CmpOK cmp) {t : ATree α}
    (h : BST cmp t) : BST cmp (rebalance t) := by
  cases t with
  | nil => trivial
  | node lv d l r =>
    rw [rebalance]
    split
    · obtain ⟨hBl, hBr, h1, h2⟩ := h
      have hX : BST cmp (ATree.node (lv - 1) d l
          (if lv - 1 < lvl r then setLvl (lv - 1) r else r)) := by
        refine ⟨hBl, ?_, h1, ?_⟩
        · split
          · exact bst_setLvl _ hBr
          · exact hBr
        · intro y hy
          split at hy
          · rw [elems_setLvl] at hy
            exact h2 y hy
          · exact h2 y hy
      have s1 := bst_skew hc hX
      have s2 := bst_onR (fun s hs => bst_skew hc hs) elems_skew s1
      have s3 := bst_onR
        (fun s hs => bst_onR (fun s2 hs2 => bst_skew hc hs2) elems_skew hs)
        (fun s => elems_onR elems_skew s) s2
      have s4 := bst_split hc s3
      exact bst_onR (fun s hs => bst_split hc hs) elems_split s4
    · exact h

theorem bst_insT {cmp : α → α → Int} (hc : CmpOK cmp) (x : α) :
    ∀ t : ATree α, BST cmp t → BST cmp (insT cmp x t) := by
  intro t
  induction t with
  | nil => exact fun _ => ⟨trivial, trivial, by simp, by simp⟩
  | node lv d l r ihl ihr =>
    intro h
    obtain ⟨hBl, hBr, h1, h2⟩ := h
    by_cases hcx : cmp d x < 0
    · rw [insT, if_pos hcx]
      refine bst_split hc (bst_skew hc ⟨hBl, ihr hBr, h1, ?_⟩)
      intro y hy
      rw [(elems_insT cmp x r).mem_iff, List.mem_cons] at hy
      rcases hy with rfl | hy
      · omega
      · exact h2 y hy
    · rw [insT, if_neg hcx]
      refine bst_split hc (bst_skew hc ⟨ihl hBl, hBr, ?_, h2⟩)
      intro y hy
      rw [(elems_insT cmp x l).mem_iff, List.mem_cons] at hy
      rcases hy with rfl | hy
      · omega
      · exact h1 y hy

theorem bst_removeMin {cmp : α → α → Int} (hc : CmpOK cmp) :
    ∀ t : ATree α, BST cmp t → ∀ m t', removeMin t = some (m, t') → BST cmp t' := by
  intro t
  induction t with
  | nil => intro _ m t' h; simp [removeMin] at h
  | node lv d l r ihl ihr =>
    intro hB m t' h
    obtain ⟨hBl, hBr, h1, h2⟩ := hB
    rw [removeMin] at h
    cases hml : removeMin l with
    | none =>
      rw [hml] at h
      simp only [Option.some.injEq, Prod.mk.injEq] at h
      obtain ⟨hm, ht⟩ := h
      subst hm; subst ht
      exact hBr
    | some p =>
      rw [hml] at h
      obtain ⟨m0, l'⟩ := p
      simp only [Option.some.injEq, Prod.mk.injEq] at h
      obtain ⟨hm, ht⟩ := h
      subst hm; subst ht
      refine bst_rebalance hc ⟨ihl hBl m0 l' hml, hBr, ?_, h2⟩
      intro y hy
      refine h1 y ?_
      rw [elems_removeMin l m0 l' hml]
      simp [hy]

theorem removeMin_min {cmp : α → α → Int} (hc : CmpOK cmp) :
    ∀ t : ATree α, BST cmp t → ∀ m t', removeMin t = some (m, t') →
    ∀ y ∈ elems t, cmp m y ≤ 0 := by
  intro t
  induction t with
  | nil => intro _ m t' h; simp [removeMin] at h
  | node lv d l r ihl ihr =>
    intro hB m t' h
    obtain ⟨hBl, hBr, h1, h2⟩ := hB
    rw [removeMin] at h
    cases hml : removeMin l with
    | none =>
      rw [hml] at h
      simp only [Option.some.injEq, Prod.mk.injEq] at h
      obtain ⟨hm, ht⟩ := h
      subst hm; subst ht
      have hlnil := removeMin_none hml
      subst hlnil
      intro y hy
      simp only [elems_node, elems_nil, List.nil_append, List.mem_cons] at hy
      rcases hy with rfl | hy
      · have := hc.self y
        omega
      · exact h2 y hy
    | some p =>
      rw [hml] at h
      obtain ⟨m0, l'⟩ := p
      simp only [Option.some.injEq, Prod.mk.injEq] at h
      obtain ⟨hm, ht⟩ := h
      subst hm; subst ht
      have hmem : m0 ∈ elems l := by
        rw [elems_removeMin l m0 l' hml]; simp
      have hmd : cmp m0 d ≤ 0 := (hc.le_flip m0 d).mpr (h1 m0 hmem)
      intro y hy
      simp only [elems_node, List.mem_append, List.mem_cons] at hy
      rcases hy with hy | rfl | hy
      · exact ihl hBl m0 l' hml y hy
      · exact hmd
      · exact hc.le_trans m0 d y hmd (h2 y hy)

theorem bst_eraseGo {cmp : α → α → Int} (hc : CmpOK cmp) (x : α) :
    ∀ t : ATree α, BST cmp t → ∀ m t', eraseGo cmp x t = some (m, t') →
    BST cmp t' := by
  intro t
  induction t with
  | nil => intro _ m t' h; simp [eraseGo] at h
  | node lv d l r ihl ihr =>
    intro hB m t' h
    obtain ⟨hBl, hBr, h1, h2⟩ := hB
    rw [eraseGo] at h
    by_cases hc0 : cmp d x = 0
    · rw [if_pos hc0] at h
      cases hli : isNil l with
      | true =>
        rw [hli, if_pos rfl] at h
        simp only [Option.some.injEq, Prod.mk.injEq] at h
        obtain ⟨hm, ht⟩ := h
        subst ht
        exact hBr
      | false =>
        rw [hli] at h
        simp only [Bool.false_eq_true, if_false] at h
        cases hri : isNil r with
        | true =>
          rw [hri, if_pos rfl] at h
          simp only [Option.some.injEq, Prod.mk.injEq] at h
          obtain ⟨hm, ht⟩ := h
          subst ht
          exact hBl
        | false =>
          rw [hri] at h
          simp only [Bool.false_eq_true, if_false] at h
          cases hmr : removeMin r with
          | none =>
            have := removeMin_none hmr
            subst this
            simp [isNil] at hri
          | some p =>
            rw [hmr] at h
            obtain ⟨m0, r''⟩ := p
            simp only [Option.map_some', Option.some.injEq, Prod.mk.injEq] at h
            obtain ⟨hm, ht⟩ := h
            subst ht
            have hmem : m0 ∈ elems r := by
              rw [elems_removeMin r m0 r'' hmr]; simp
            refine bst_rebalance hc ⟨hBl, bst_removeMin hc r hBr m0 r'' hmr, ?_, ?_⟩
            · intro y hy
              have hyd : cmp y d ≤ 0 := (hc.le_flip y d).mpr (h1 y hy)
              have hdm : cmp d m0 ≤ 0 := h2 m0 hmem
              have h3 := hc.le_trans y d m0 hyd hdm
              exact (hc.le_flip y m0).mp h3
            · intro y hy
              refine removeMin_min hc r hBr m0 r'' hmr y ?_
              rw [elems_removeMin r m0 r'' hmr]
              simp [hy]
    · rw [if_neg hc0] at h
      by_cases hcl : cmp d x < 0
      · rw [if_pos hcl] at h
        cases hme : eraseGo cmp x r with
        | none => rw [hme] at h; simp at h
        | some p =>
          rw [hme] at h
          obtain ⟨m0, r'⟩ := p
          simp only [Option.map_some', Option.some.injEq, Prod.mk.injEq] at h
          obtain ⟨hm, ht⟩ := h
          subst ht
          refine bst_rebalance hc ⟨hBl, ihr hBr m0 r' hme, h1, ?_⟩
          intro y hy
          refine h2 y ?_
          exact ((elems_eraseGo cmp x r m0 r' hme).mem_iff).mpr (by simp [hy])
      · rw [if_neg hcl] at h
        cases hme : eraseGo cmp x l with
        | none => rw [hme] at h; simp at h
        | some p =>
          rw [hme] at h
          obtain ⟨m0, l'⟩ := p
          simp only [Option.map_some', Option.some.injEq, Prod.mk.injEq] at h
          obtain ⟨hm, ht⟩ := h
          subst ht
          refine bst_rebalance hc ⟨ihl hBl m0 l' hme, hBr, ?_, h2⟩
          intro y hy
          refine h1 y ?_
          exact ((elems_eraseGo cmp x l m0 l' hme).mem_iff).mpr (by simp [hy])

theorem bst_aerase {cmp : α → α → Int} (hc : CmpOK cmp) (x : α)
    {t : ATree α} (hB : BST cmp t) {m : α} {t' : ATree α}
    (h : jsw_aerase cmp x t = some (m, t')) : BST cmp t' := by
  cases t with
  | nil => simp [jsw_aerase] at h
  | node lv d l r =>
    obtain ⟨hBl, hBr, h1, h2⟩ := hB
    rw [jsw_aerase] at h
    by_cases hc0 : cmp d x = 0
    · rw [if_pos hc0] at h
      by_cases hnil : isNil l ∨ isNil r
      · rw [if_pos hnil] at h
        simp only [Option.some.injEq, Prod.mk.injEq] at h
        obtain ⟨hm, ht⟩ := h
        subst ht
        exact hBr
      · rw [if_neg hnil] at h
        cases hmr : removeMin r with
        | none =>
          have := removeMin_none hmr
          subst this
          simp [isNil] at hnil
        | some p =>
          rw [hmr] at h
          obtain ⟨m0, r''⟩ := p
          simp only [Option.map_some', Option.some.injEq, Prod.mk.injEq] at h
          obtain ⟨hm, ht⟩ := h
          subst ht
          have hmem : m0 ∈ elems r := by
            rw [elems_removeMin r m0 r'' hmr]; simp
          refine bst_rebalance hc ⟨hBl, bst_removeMin hc r hBr m0 r'' hmr, ?_, ?_⟩
          · intro y hy
            have hyd : cmp y d ≤ 0 := (hc.le_flip y d).mpr (h1 y hy)
            have hdm : cmp d m0 ≤ 0 := h2 m0 hmem
            have h3 := hc.le_trans y d m0 hyd hdm
            exact (hc.le_flip y m0).mp h3
          · intro y hy
            refine removeMin_min hc r hBr m0 r'' hmr y ?_
            rw [elems_removeMin r m0 r'' hmr]
            simp [hy]
    · rw [if_neg hc0] at h
      by_cases hcl : cmp d x < 0
      · rw [if_pos hcl] at h
        cases hme : eraseGo cmp x r with
        | none => rw [hme] at h; simp at h
        | some p =>
          rw [hme] at h
          obtain ⟨m0, r'⟩ := p
          simp only [Option.map_some', Option.some.injEq, Prod.mk.injEq] at h
          obtain ⟨hm, ht⟩ := h
          subst ht
          refine bst_rebalance hc ⟨hBl, bst_eraseGo hc x r hBr m0 r' hme, h1, ?_⟩
          intro y hy
          refine h2 y ?_
          exact ((elems_eraseGo cmp x r m0 r' hme).mem_iff).mpr (by simp [hy])
      · rw [if_neg hcl] at h
        cases hme : eraseGo cmp x l with
        | none => rw [hme] at h; simp at h
        | some p =>
          rw [hme] at h
          obtain ⟨m0, l'⟩ := p
          simp only [Option.map_some', Option.some.injEq, Prod.mk.injEq] at h
          obtain ⟨hm, ht⟩ := h
          subst ht
          refine bst_rebalance hc ⟨bst_eraseGo hc x l hBl m0 l' hme, hBr, ?_, h2⟩
          intro y hy
          refine h1 y ?_
          exact ((elems_eraseGo cmp x l m0 l' hme).mem_iff).mpr (by simp [hy])

/-! ### Search correctness -/

/-- A found element is a stored element comparing equal to the probe. -/
theorem find_some (cmp : α → α → Int) (x : α) :
    ∀ t : ATree α, ∀ y, jsw_afind cmp x t = some y → cmp y x = 0 ∧ y ∈ elems t := by
  intro t
  induction t with
  | nil => intro y h; simp [jsw_afind] at h
  | node lv d l r ihl ihr =>
    intro y h
    rw [jsw_afind] at h
    by_cases hc0 : cmp d x = 0
    · rw [if_pos hc0] at h
      simp only [Option.some.injEq] at h
      subst h
      exact ⟨hc0, by simp⟩
    · rw [if_neg hc0] at h
      by_cases hcl : cmp d x < 0
      · rw [if_pos hcl] at h
        obtain ⟨he, hm⟩ := ihr y h
        exact ⟨he, by simp [hm]⟩
      · rw [if_neg hcl] at h
        obtain ⟨he, hm⟩ := ihl y h
        exact ⟨he, by simp [hm]⟩

/-- On a search-ordered tree, an unsuccessful find means no stored
element compares equal to the probe. -/
theorem find_none {cmp : α → α → Int} (hc : CmpOK cmp) (x : α) :
    ∀ t : ATree α, BST cmp t → jsw_afind cmp x t = none →
    ∀ y ∈ elems t, cmp y x ≠ 0 := by
  intro t
  induction t with
  | nil => intro _ _ y hy; simp at hy
  | node lv d l r ihl ihr =>
    intro hB h y hy
    obtain ⟨hBl, hBr, h1, h2⟩ := hB
    rw [jsw_afind] at h
    by_cases hc0 : cmp d x = 0
    · rw [if_pos hc0] at h; simp at h
    · rw [if_neg hc0] at h
      simp only [elems_node, List.mem_append, List.mem_cons] at hy
      by_cases hcl : cmp d x < 0
      · rw [if_pos hcl] at h
        rcases hy with hy | rfl | hy
        · -- a low element cannot compare equal to a probe above the node
          intro he
          have hyd : cmp y d ≤ 0 := (hc.le_flip y d).mpr (h1 y hy)
          have hxy : cmp x y = 0 := hc.eq_symm he
          have := hc.le_trans x y d (by omega) hyd
          have := (hc.le_flip x d).mp this
          omega
        · exact hc0
        · exact ihr hBr h y hy
      · rw [if_neg hcl] at h
        rcases hy with hy | rfl | hy
        · exact ihl hBl h y hy
        · exact hc0
        · -- a high element cannot compare equal to a probe below the node
          intro he
          have hdy : cmp d y ≤ 0 := h2 y hy
          have := hc.le_trans d y x hdy (by omega)
          omega

/-- If no stored element compares equal, the erase descent reaches the
sentinel: no search-order assumption is needed for this direction. -/
theorem eraseGo_none_of (cmp : α → α → Int) (x : α) :
    ∀ t : ATree α, (∀ y ∈ elems t, cmp y x ≠ 0) → eraseGo cmp x t = none := by
  intro t
  induction t with
  | nil => intro _; rfl
  | node lv d l r ihl ihr =>
    intro hno
    have hd : cmp d x ≠ 0 := hno d (by simp)
    rw [eraseGo, if_neg hd]
    by_cases hcl : cmp d x < 0
    · rw [if_pos hcl, ihr (fun y hy => hno y (by simp [hy]))]
      rfl
    · rw [if_neg hcl, ihl (fun y hy => hno y (by simp [hy]))]
      rfl

/-- Same at the root. -/
theorem jsw_aerase_none_of (cmp : α → α → Int) (x : α)
    (t : ATree α) (hno : ∀ y ∈ elems t, cmp y x ≠ 0) :
    jsw_aerase cmp x t = none := by
  cases t with
  | nil => rfl
  | node lv d l r =>
    have hd : cmp d x ≠ 0 := hno d (by simp)
    rw [jsw_aerase, if_neg hd]
    by_cases hcl : cmp d x < 0
    · rw [if_pos hcl, eraseGo_none_of cmp x r (fun y hy => hno y (by simp [hy]))]
      rfl
    · rw [if_neg hcl, eraseGo_none_of cmp x l (fun y hy => hno y (by simp [hy]))]
      rfl

/-- On a search-ordered tree, a failed erase means no stored element
compares equal to the probe. -/
theorem eraseGo_none_imp {cmp : α → α → Int} (hc : CmpOK cmp) (x : α) :
    ∀ t : ATree α, BST cmp t → eraseGo cmp x t = none →
    ∀ y ∈ elems t, cmp y x ≠ 0 := by
  intro t
  induction t with
  | nil => intro _ _ y hy; simp at hy
  | node lv d l r ihl ihr =>
    intro hB h y hy
    obtain ⟨hBl, hBr, h1, h2⟩ := hB
    rw [eraseGo] at h
    by_cases hc0 : cmp d x = 0
    · rw [if_pos hc0] at h
      cases hli : isNil l with
      | true => rw [hli, if_pos rfl] at h; simp at h
      | false =>
        rw [hli] at h
        simp only [Bool.false_eq_true, if_false] at h
        cases hri : isNil r with
        | true => rw [hri, if_pos rfl] at h; simp at h
        | false =>
          rw [hri] at h
          simp only [Bool.false_eq_true, if_false] at h
          cases hmr : removeMin r with
          | none =>
            have := removeMin_none hmr
            subst this
            simp [isNil] at hri
          | some p => rw [hmr] at h; simp at h
    · rw [if_neg hc0] at h
      simp only [elems_node, List.mem_append, List.mem_cons] at hy
      by_cases hcl : cmp d x < 0
      · rw [if_pos hcl] at h
        have hsub : eraseGo cmp x r = none := by
          cases hme : eraseGo cmp x r with
          | none => rfl
          | some p => rw [hme] at h; simp at h
        rcases hy with hy | rfl | hy
        · intro he
          have hyd : cmp y d ≤ 0 := (hc.le_flip y d).mpr (h1 y hy)
          have hxy : cmp x y = 0 := hc.eq_symm he
          have := hc.le_trans x y d (by omega) hyd
          have := (hc.le_flip x d).mp this
          omega
        · exact hc0
        · exact ihr hBr hsub y hy
      · rw [if_neg hcl] at h
        have hsub : eraseGo cmp x l = none := by
          cases hme : eraseGo cmp x l with
          | none => rfl
          | some p => rw [hme] at h; simp at h
        rcases hy with hy | rfl | hy
        · exact ihl hBl hsub y hy
        · exact hc0
        · intro he
          have hdy : cmp d y ≤ 0 := h2 y hy
          have := hc.le_trans d y x hdy (by omega)
          omega

/-- Same at the root. -/
theorem jsw_aerase_none_imp {cmp : α → α → Int} (hc : CmpOK cmp) (x : α)
    {t : ATree α} (hB : BST cmp t) (h : jsw_aerase cmp x t = none) :
    ∀ y ∈ elems t, cmp y x ≠ 0 := by
  cases t with
  | nil => intro y hy; simp at hy
  | node lv d l r =>
    intro y hy
    obtain ⟨hBl, hBr, h1, h2⟩ := hB
    rw [jsw_aerase] at h
    by_cases hc0 : cmp d x = 0
    · rw [if_pos hc0] at h
      by_cases hnil : isNil l ∨ isNil r
      · rw [if_pos hnil] at h; simp at h
      · rw [if_neg hnil] at h
        cases hmr : removeMin r with
        | none =>
          have := removeMin_none hmr
          subst this
          simp [isNil] at hnil
        | some p => rw [hmr] at h; simp at h
    · rw [if_neg hc0] at h
      simp only [elems_node, List.mem_append, List.mem_cons] at hy
      by_cases hcl : cmp d x < 0
      · rw [if_pos hcl] at h
        have hsub : eraseGo cmp x r = none := by
          cases hme : eraseGo cmp x r with
          | none => rfl
          | some p => rw [hme] at h; simp at h
        rcases hy with hy | rfl | hy
        · intro he
          have hyd : cmp y d ≤ 0 := (hc.le_flip y d).mpr (h1 y hy)
          have hxy : cmp x y = 0 := hc.eq_symm he
          have := hc.le_trans x y d (by omega) hyd
          have := (hc.le_flip x d).mp this
          omega
        · exact hc0
        · exact eraseGo_none_imp hc x r hBr hsub y hy
      · rw [if_neg hcl] at h
        have hsub : eraseGo cmp x l = none := by
          cases hme : eraseGo cmp x l with
          | none => rfl
          | some p => rw [hme] at h; simp at h
        rcases hy with hy | rfl | hy
        · exact eraseGo_none_imp hc x l hBl hsub y hy
        · exact hc0
        · intro he
          have hdy : cmp d y ≤ 0 := h2 y hy
          have := hc.le_trans d y x hdy (by omega)
          omega

/-- The element released by a successful erase compares equal to the
probe. -/
theorem eraseGo_rel_eq (cmp : α → α → Int) (x : α) :
    ∀ t : ATree α, ∀ m t', eraseGo cmp x t = some (m, t') → cmp m x = 0 := by
  intro t
  induction t with
  | nil => intro m t' h; simp [eraseGo] at h
  | node lv d l r ihl ihr =>
    intro m t' h
    rw [eraseGo] at h
    by_cases hc0 : cmp d x = 0
    · rw [if_pos hc0] at h
      cases hli : isNil l with
      | true =>
        rw [hli, if_pos rfl] at h
        simp only [Option.some.injEq, Prod.mk.injEq] at h
        obtain ⟨hm, -⟩ := h
        subst hm; exact hc0
      | false =>
        rw [hli] at h
        simp only [Bool.false_eq_true, if_false] at h
        cases hri : isNil r with
        | true =>
          rw [hri, if_pos rfl] at h
          simp only [Option.some.injEq, Prod.mk.injEq] at h
          obtain ⟨hm, -⟩ := h
          subst hm; exact hc0
        | false =>
          rw [hri] at h
          simp only [Bool.false_eq_true, if_false] at h
          cases hmr : removeMin r with
          | none => rw [hmr] at h; simp at h
          | some p =>
            rw [hmr] at h
            simp only [Option.map_some', Option.some.injEq, Prod.mk.injEq] at h
            obtain ⟨hm, -⟩ := h
            subst hm; exact hc0
    · rw [if_neg hc0] at h
      by_cases hcl : cmp d x < 0
      · rw [if_pos hcl] at h
        cases hme : eraseGo cmp x r with
        | none => rw [hme] at h; simp at h
        | some p =>
          rw [hme] at h
          obtain ⟨m0, r'⟩ := p
          simp only [Option.map_some', Option.some.injEq, Prod.mk.injEq] at h
          obtain ⟨hm, -⟩ := h
          subst hm
          exact ihr m0 r' hme
      · rw [if_neg hcl] at h
        cases hme : eraseGo cmp x l with
        | none => rw [hme] at h; simp at h
        | some p =>
          rw [hme] at h
          obtain ⟨m0, l'⟩ := p
          simp only [Option.map_some', Option.some.injEq, Prod.mk.injEq] at h
          obtain ⟨hm, -⟩ := h
          subst hm
          exact ihl m0 l' hme

theorem jsw_aerase_rel_eq (cmp : α → α → Int) (x : α)
    {t : ATree α} {m : α} {t' : ATree α}
    (h : jsw_aerase cmp x t = some (m, t')) : cmp m x = 0 := by
  cases t with
  | nil => simp [jsw_aerase] at h
  | node lv d l r =>
    rw [jsw_aerase] at h
    by_cases hc0 : cmp d x = 0
    · rw [if_pos hc0] at h
      by_cases hnil : isNil l ∨ isNil r
      · rw [if_pos hnil] at h
        simp only [Option.some.injEq, Prod.mk.injEq] at h
        obtain ⟨hm, -⟩ := h
        subst hm; exact hc0
      · rw [if_neg hnil] at h
        cases hmr : removeMin r with
        | none => rw [hmr] at h; simp at h
        | some p =>
          rw [hmr] at h
          simp only [Option.map_some', Option.some.injEq, Prod.mk.injEq] at h
          obtain ⟨hm, -⟩ := h
          subst hm; exact hc0
    · rw [if_neg hc0] at h
      by_cases hcl : cmp d x < 0
      · rw [if_pos hcl] at h
        cases hme : eraseGo cmp x r with
        | none => rw [hme] at h; simp at h
        | some p =>
          rw [hme] at h
          obtain ⟨m0, r'⟩ := p
          simp only [Option.map_some', Option.some.injEq, Prod.mk.injEq] at h
          obtain ⟨hm, -⟩ := h
          subst hm
          exact eraseGo_rel_eq cmp x r m0 r' hme
      · rw [if_neg hcl] at h
        cases hme : eraseGo cmp x l with
        | none => rw [hme] at h; simp at h
        | some p =>
          rw [hme] at h
          obtain ⟨m0, l'⟩ := p
          simp only [Option.map_some', Option.some.injEq, Prod.mk.injEq] at h
          obtain ⟨hm, -⟩ := h
          subst hm
          exact eraseGo_rel_eq cmp x l m0 l' hme

/-! ### Destruction, operation sequences, and the global invariant -/

/-- The destruction-by-rotation teardown releases exactly the stored
elements (each exactly once). -/
theorem jsw_adelete_perm : ∀ t : ATree α, List.Perm (jsw_adelete t) (elems t) := by
  intro t
  induction t using jsw_adelete.induct with
  | case1 => simp [jsw_adelete]
  | case2 lv d r ih =>
    rw [jsw_adelete]
    simpa using ih.cons d
  | case3 lv d llv ld ll lr r ih =>
    rw [jsw_adelete]
    refine ih.trans ?_
    simp [List.append_assoc]

/-- One user-level operation: an insert attempt (with its allocation
outcome) or an erase attempt. -/
inductive Op (α : Type) where
  | ins (alloc : Bool) (x : α)
  | del (x : α)

def runOp (cmp : α → α → Int) (t : Jtree α) : Op α → Jtree α
  | .ins alloc x => (jsw_ainsert cmp alloc x t).2
  | .del x => (jsw_aeraseT cmp x t).2.1

/-- The tree obtained from `jsw_anew` by a sequence of operations. -/
def run (cmp : α → α → Int) (ops : List (Op α)) : Jtree α :=
  ops.foldl (runOp cmp) jsw_anew

/-- Run a sequence while counting the operations that returned success
(inserts, erases). -/
def runCount (cmp : α → α → Int) : Jtree α → List (Op α) → Jtree α × Nat × Nat
  | t, [] => (t, 0, 0)
  | t, .ins alloc x :: ops =>
    let p := jsw_ainsert cmp alloc x t
    let q := runCount cmp p.2 ops
    (q.1, (if p.1 then 1 else 0) + q.2.1, q.2.2)
  | t, .del x :: ops =>
    let p := jsw_aeraseT cmp x t
    let q := runCount cmp p.2.1 ops
    (q.1, q.2.1, (if p.1 then 1 else 0) + q.2.2)

theorem runCount_fst (cmp : α → α → Int) :
    ∀ ops : List (Op α), ∀ t, (runCount cmp t ops).1 = ops.foldl (runOp cmp) t := by
  intro ops
  induction ops with
  | nil => intro t; rfl
  | cons op ops ih =>
    intro t
    cases op with
    | ins alloc x => simp [runCount, runOp, List.foldl_cons, ih]
    | del x => simp [runCount, runOp, List.foldl_cons, ih]

/-- The global state invariant of every reachable tree: level balance,
search order, and an accurate size counter. -/
def Good (cmp : α → α → Int) (t : Jtree α) : Prop :=
  Inv t.root ∧ BST cmp t.root ∧ t.size = (elems t.root).length

theorem good_anew (cmp : α → α → Int) : Good cmp (jsw_anew : Jtree α) :=
  ⟨trivial, trivial, rfl⟩

theorem good_insert {cmp : α → α → Int} (hc : CmpOK cmp) (alloc : Bool) (x : α)
    {t : Jtree α} (hG : Good cmp t) : Good cmp (jsw_ainsert cmp alloc x t).2 := by
  obtain ⟨hI, hB, hs⟩ := hG
  cases alloc with
  | false => rw [jsw_ainsert, ainsertGo_false]; exact ⟨hI, hB, hs⟩
  | true =>
    rw [jsw_ainsert, ainsertGo_true]
    refine ⟨insT_inv cmp x hI, bst_insT hc x t.root hB, ?_⟩
    show t.size + 1 = (elems (insT cmp x t.root)).length
    rw [(elems_insT cmp x t.root).length_eq]
    simp [hs]

theorem good_erase {cmp : α → α → Int} (hc : CmpOK cmp) (x : α)
    {t : Jtree α} (hG : Good cmp t) : Good cmp (jsw_aeraseT cmp x t).2.1 := by
  obtain ⟨hI, hB, hs⟩ := hG
  rw [jsw_aeraseT]
  cases he : jsw_aerase cmp x t.root with
  | none => exact ⟨hI, hB, hs⟩
  | some p =>
    obtain ⟨m, rt⟩ := p
    refine ⟨jsw_aerase_inv cmp x hI he, bst_aerase hc x hB he, ?_⟩
    show t.size - 1 = (elems rt).length
    have := (elems_aerase cmp x hI he).length_eq
    simp at this
    omega

theorem good_foldl {cmp : α → α → Int} (hc : CmpOK cmp) :
    ∀ ops : List (Op α), ∀ t, Good cmp t → Good cmp (ops.foldl (runOp cmp) t) := by
  intro ops
  induction ops with
  | nil => intro t h; exact h
  | cons op ops ih =>
    intro t h
    rw [List.foldl_cons]
    cases op with
    | ins alloc x => exact ih _ (good_insert hc alloc x h)
    | del x => exact ih _ (good_erase hc x h)

theorem good_run {cmp : α → α → Int} (hc : CmpOK cmp) (ops : List (Op α)) :
    Good cmp (run cmp ops) := good_foldl hc ops jsw_anew (good_anew cmp)

/-! ### Reference multiset semantics (from the spec's words) and the
count bridge -/

/-- How many stored elements compare equal to `e`. -/
def countEq (cmp : α → α → Int) (e : α) (s : List α) : Nat :=
  s.countP (fun y => decide (cmp y e = 0))

/-- Reference removal from the spec's words: erase removes one element
comparing equal to the probe, failing when there is none. -/
def specRemoveEq (cmp : α → α → Int) (x : α) : List α → Option (List α)
  | [] => none
  | y :: ys =>
    if cmp y x = 0 then some ys
    else (specRemoveEq cmp x ys).map (fun s => y :: s)

/-- Reference state transition from the spec's words: a successful
insert stores (a clone of) the element; an erase removes one element
comparing equal, if any. -/
def specStep (cmp : α → α → Int) (s : List α) : Op α → List α
  | .ins alloc x => if alloc then x :: s else s
  | .del x =>
    match specRemoveEq cmp x s with
    | none => s
    | some s' => s'

/-- Reference multiset after a sequence of operations ("inserted and not
subsequently erased", with duplicates as distinct entries). -/
def specMultiset (cmp : α → α → Int) (ops : List (Op α)) : List α :=
  ops.foldl (specStep cmp) []

theorem specRemoveEq_none_iff (cmp : α → α → Int) (x : α) :
    ∀ s : List α, specRemoveEq cmp x s = none ↔ ∀ y ∈ s, cmp y x ≠ 0 := by
  intro s
  induction s with
  | nil => simp [specRemoveEq]
  | cons y ys ih =>
    rw [specRemoveEq]
    by_cases hy : cmp y x = 0
    · rw [if_pos hy]
      simp [hy]
    · rw [if_neg hy]
      constructor
      · intro h z hz
        rcases List.mem_cons.mp hz with rfl | hz
        · exact hy
        · refine (ih.mp ?_) z hz
          cases hs : specRemoveEq cmp x ys with
          | none => rfl
          | some s' => rw [hs] at h; simp at h
      · intro h
        rw [ih.mpr (fun z hz => h z (by simp [hz]))]
        rfl

/-- Comparing equal is transferable across the equivalence class. -/
theorem countEq_eq_of_eq {cmp : α → α → Int} (hc : CmpOK cmp) {a b : α}
    (hab : cmp a b = 0) (e : α) :
    (if cmp a e = 0 then 1 else 0) = (if cmp b e = 0 then 1 else 0) := by
  by_cases h1 : cmp a e = 0
  · rw [if_pos h1, if_pos (hc.eq_trans (hc.eq_symm hab) h1)]
  · rw [if_neg h1, if_neg (fun h2 => h1 (hc.eq_trans hab h2))]

theorem countEq_cons (cmp : α → α → Int) (e y : α) (s : List α) :
    countEq cmp e (y :: s) = countEq cmp e s + (if cmp y e = 0 then 1 else 0) := by
  rw [countEq, countEq, List.countP_cons]
  simp

theorem specRemoveEq_count {cmp : α → α → Int} (hc : CmpOK cmp) (x : α) :
    ∀ s s' : List α, specRemoveEq cmp x s = some s' →
    ∀ e, countEq cmp e s = countEq cmp e s' + (if cmp x e = 0 then 1 else 0) := by
  intro s
  induction s with
  | nil => intro s' h; simp [specRemoveEq] at h
  | cons y ys ih =>
    intro s' h e
    rw [specRemoveEq] at h
    by_cases hy : cmp y x = 0
    · rw [if_pos hy] at h
      simp only [Option.some.injEq] at h
      subst h
      rw [countEq_cons]
      rw [countEq_eq_of_eq hc hy e]
    · rw [if_neg hy] at h
      cases hs : specRemoveEq cmp x ys with
      | none => rw [hs] at h; simp at h
      | some s'' =>
        rw [hs] at h
        simp only [Option.map_some', Option.some.injEq] at h
        subst h
        rw [countEq_cons, countEq_cons, ih s'' hs e]
        omega

theorem countEq_pos_iff (cmp : α → α → Int) (e : α) (s : List α) :
    0 < countEq cmp e s ↔ ∃ y ∈ s, cmp y e = 0 := by
  rw [countEq, List.countP_pos_iff]
  simp

/-- Count transfer along a permutation. -/
theorem countEq_perm (cmp : α → α → Int) (e : α) {s s' : List α}
    (h : List.Perm s s') : countEq cmp e s = countEq cmp e s' :=
  h.countP_eq _

/-- The per-element count bridge between the engine and the reference
state. -/
def SyncInv (cmp : α → α → Int) (t : Jtree α) (s : List α) : Prop :=
  ∀ e, countEq cmp e (elems t.root) = countEq cmp e s

theorem sync_step {cmp : α → α → Int} (hc : CmpOK cmp) {t : Jtree α} {s : List α}
    (hG : Good cmp t) (hS : SyncInv cmp t s) (op : Op α) :
    SyncInv cmp (runOp cmp t op) (specStep cmp s op) := by
  obtain ⟨hI, hB, hsz⟩ := hG
  cases op with
  | ins alloc x =>
    cases alloc with
    | false =>
      intro e
      rw [runOp, jsw_ainsert, ainsertGo_false]
      simpa [specStep] using hS e
    | true =>
      intro e
      rw [runOp, jsw_ainsert, ainsertGo_true]
      show countEq cmp e (elems (insT cmp x t.root)) = countEq cmp e (specStep cmp s (Op.ins true x))
      rw [countEq_perm cmp e (elems_insT cmp x t.root), countEq_cons]
      show countEq cmp e (elems t.root) + (if cmp x e = 0 then 1 else 0) =
        countEq cmp e (x :: s)
      rw [countEq_cons, hS e]
  | del x =>
    intro e
    rw [runOp, jsw_aeraseT]
    cases he : jsw_aerase cmp x t.root with
    | none =>
      have hno := jsw_aerase_none_imp hc x hB he
      have hs' : specRemoveEq cmp x s = none := by
        rw [specRemoveEq_none_iff]
        intro y hy hy0
        have h1 : 0 < countEq cmp x s := by
          rw [countEq_pos_iff]
          exact ⟨y, hy, hy0⟩
        rw [← hS x, countEq_pos_iff] at h1
        obtain ⟨z, hz, hz0⟩ := h1
        exact hno z hz hz0
      show countEq cmp e (elems t.root) = countEq cmp e (specStep cmp s (Op.del x))
      rw [specStep, hs']
      exact hS e
    | some p =>
      obtain ⟨m, rt⟩ := p
      have hme : cmp m x = 0 := jsw_aerase_rel_eq cmp x he
      have hperm := elems_aerase cmp x hI he
      have hmem : m ∈ elems t.root := hperm.mem_iff.mpr (by simp)
      have hs' : specRemoveEq cmp x s ≠ none := by
        intro hn
        have hno := (specRemoveEq_none_iff cmp x s).mp hn
        have h1 : 0 < countEq cmp x (elems t.root) := by
          rw [countEq_pos_iff]
          exact ⟨m, hmem, hme⟩
        rw [hS x, countEq_pos_iff] at h1
        obtain ⟨z, hz, hz0⟩ := h1
        exact hno z hz hz0
      cases hsr : specRemoveEq cmp x s with
      | none => exact absurd hsr hs'
      | some s' =>
        show countEq cmp e (elems rt) = countEq cmp e (specStep cmp s (Op.del x))
        rw [specStep, hsr]
        show countEq cmp e (elems rt) = countEq cmp e s'
        have h2 := countEq_perm cmp e hperm
        rw [countEq_cons] at h2
        have h3 := specRemoveEq_count hc x s s' hsr e
        have h4 := countEq_eq_of_eq hc hme e
        have h5 := hS e
        omega

theorem sync_foldl {cmp : α → α → Int} (hc : CmpOK cmp) :
    ∀ ops : List (Op α), ∀ t s, Good cmp t → SyncInv cmp t s →
    SyncInv cmp (ops.foldl (runOp cmp) t) (ops.foldl (specStep cmp) s) := by
  intro ops
  induction ops with
  | nil => intro t s _ hS; exact hS
  | cons op ops ih =>
    intro t s hG hS
    rw [List.foldl_cons, List.foldl_cons]
    cases op with
    | ins alloc x =>
      exact ih _ _ (good_insert hc alloc x hG) (sync_step hc hG hS (Op.ins alloc x))
    | del x =>
      exact ih _ _ (good_erase hc x hG) (sync_step hc hG hS (Op.del x))

/-- Every reachable tree's stored-element counts agree with the
reference multiset semantics, for every query element. -/
theorem run_sync {cmp : α → α → Int} (hc : CmpOK cmp) (ops : List (Op α)) :
    SyncInv cmp (run cmp ops) (specMultiset cmp ops) :=
  sync_foldl hc ops jsw_anew [] (good_anew cmp) (fun _ => rfl)

/-! ### Reachability lemmas that need no comparison axioms -/

theorem inv_runOp (cmp : α → α → Int) (t : Jtree α) (op : Op α)
    (h : Inv t.root) : Inv ((runOp cmp t op).root) := by
  cases op with
  | ins alloc x =>
    cases alloc with
    | false => rw [runOp, jsw_ainsert, ainsertGo_false]; exact h
    | true => rw [runOp, jsw_ainsert, ainsertGo_true]; exact insT_inv cmp x h
  | del x =>
    rw [runOp, jsw_aeraseT]
    cases he : jsw_aerase cmp x t.root with
    | none => exact h
    | some p =>
      obtain ⟨m, rt⟩ := p
      exact jsw_aerase_inv cmp x h he

theorem inv_run (cmp : α → α → Int) (ops : List (Op α)) :
    Inv ((run cmp ops).root) := by
  rw [run]
  have : ∀ t : Jtree α, Inv t.root → Inv ((ops.foldl (runOp cmp) t).root) := by
    induction ops with
    | nil => exact fun t h => h
    | cons op ops ih =>
      intro t h
      rw [List.foldl_cons]
      exact ih _ (inv_runOp cmp t op h)
  exact this jsw_anew trivial

/-- The node-subtree relation (a node of the tree, identified with the
subtree it roots). -/
inductive SubtreeOf : ATree α → ATree α → Prop
  | refl (t : ATree α) : SubtreeOf t t
  | low {s : ATree α} (lv : Nat) (d : α) (l r : ATree α) :
      SubtreeOf s l → SubtreeOf s (ATree.node lv d l r)
  | high {s : ATree α} (lv : Nat) (d : α) (l r : ATree α) :
      SubtreeOf s r → SubtreeOf s (ATree.node lv d l r)

theorem inv_subtree {t s : ATree α} (hI : Inv t) (h : SubtreeOf s t) : Inv s := by
  induction h with
  | refl => exact hI
  | low lv d l r hsub ih => exact ih hI.1
  | high lv d l r hsub ih => exact ih hI.2.1

theorem jsw_ainsert_false_eq (cmp : α → α → Int) (x : α) (t : Jtree α) :
    jsw_ainsert cmp false x t = (false, t) := by
  rw [jsw_ainsert, ainsertGo_false]

theorem jsw_ainsert_true_eq (cmp : α → α → Int) (x : α) (t : Jtree α) :
    jsw_ainsert cmp true x t = (true, ⟨insT cmp x t.root, t.size + 1⟩) := by
  rw [jsw_ainsert, ainsertGo_true]

theorem jsw_aeraseT_none_eq {cmp : α → α → Int} {x : α} {t : Jtree α}
    (he : jsw_aerase cmp x t.root = none) :
    jsw_aeraseT cmp x t = (false, t, none) := by
  rw [jsw_aeraseT, he]

theorem jsw_aeraseT_some_eq {cmp : α → α → Int} {x : α} {t : Jtree α}
    {m : α} {rt : ATree α} (he : jsw_aerase cmp x t.root = some (m, rt)) :
    jsw_aeraseT cmp x t = (true, ⟨rt, t.size - 1⟩, some m) := by
  rw [jsw_aeraseT, he]

/-- Size bookkeeping along a counted run. -/
theorem runCount_size {cmp : α → α → Int} (hc : CmpOK cmp) :
    ∀ ops : List (Op α), ∀ t, Good cmp t →
    (runCount cmp t ops).1.size + (runCount cmp t ops).2.2 =
      t.size + (runCount cmp t ops).2.1 := by
  intro ops
  induction ops with
  | nil => intro t _; simp [runCount]
  | cons op ops ih =>
    intro t hG
    cases op with
    | ins alloc x =>
      have hG' := good_insert hc alloc x hG
      have hrec := ih (jsw_ainsert cmp alloc x t).2 hG'
      cases alloc with
      | false =>
        rw [runCount]
        simp only [jsw_ainsert_false_eq] at hrec ⊢
        simp only [Bool.false_eq_true, if_false]
        omega
      | true =>
        rw [runCount]
        simp only [jsw_ainsert_true_eq] at hrec ⊢
        simp only [if_true]
        omega
    | del x =>
      have hG' := good_erase hc x hG
      have hrec := ih (jsw_aeraseT cmp x t).2.1 hG'
      rw [runCount]
      cases he : jsw_aerase cmp x t.root with
      | none =>
        simp only [jsw_aeraseT_none_eq he] at hrec ⊢
        simp only [Bool.false_eq_true, if_false]
        omega
      | some p =>
        obtain ⟨m, rt⟩ := p
        have hlen : t.size = (elems t.root).length := hG.2.2
        have hperm := (elems_aerase cmp x hG.1 he).length_eq
        simp only [List.length_cons] at hperm
        simp only [jsw_aeraseT_some_eq he] at hrec ⊢
        simp only [if_true]
        omega

/-! ### The claims -/

/-- A concrete integer comparison for witnesses. -/
def cmpInt (a b : Int) : Int := a - b

theorem cmpInt_ok : CmpOK cmpInt := by
  constructor
  · intro a b; simp only [cmpInt]; omega
  · intro a b c; simp only [cmpInt]; omega

/-- C1.  Membership correctness: after any sequence of
create/insert/erase operations, `jsw_afind` returns a stored element
comparing equal to the probe exactly when the reference semantics (one
entry per successful insert of a comparing-equal element, one entry
removed per successful erase, duplicates distinct) holds at least one
such entry. -/
theorem claim1_membership {α : Type} (cmp : α → α → Int) (hc : CmpOK cmp)
    (ops : List (Op α)) (e : α) :
    (∃ y, jsw_afind cmp e (run cmp ops).root = some y ∧ cmp y e = 0 ∧
        y ∈ elems (run cmp ops).root) ↔
      0 < countEq cmp e (specMultiset cmp ops) := by
  have hG := good_run hc ops
  have hS := run_sync hc ops
  constructor
  · rintro ⟨y, hy, he, hm⟩
    rw [← hS e, countEq_pos_iff]
    exact ⟨y, hm, he⟩
  · intro h
    rw [← hS e, countEq_pos_iff] at h
    obtain ⟨y, hy, hy0⟩ := h
    cases hf : jsw_afind cmp e (run cmp ops).root with
    | none => exact absurd hy0 (find_none hc e _ hG.2.1 hf y hy)
    | some z =>
      obtain ⟨hz0, hzm⟩ := find_some cmp e _ z hf
      exact ⟨z, rfl, hz0, hzm⟩

theorem claim1_membership_witness :
    ∃ y, jsw_afind cmpInt 3
        (run cmpInt [Op.ins true 5, Op.ins true 3, Op.del 5]).root = some y ∧
      cmpInt y 3 = 0 ∧
      y ∈ elems (run cmpInt [Op.ins true 5, Op.ins true 3, Op.del 5]).root :=
  (claim1_membership cmpInt cmpInt_ok [Op.ins true 5, Op.ins true 3, Op.del 5] 3).mpr
    (by decide)

/-- C2.  Level-balance invariant preservation: every non-sentinel node
of a reachable tree has a low child exactly one level down and no two
consecutive same-level high links. -/
theorem claim2_invariant (cmp : α → α → Int) (ops : List (Op α))
    (s : ATree α) (hs : SubtreeOf s (run cmp ops).root) (hne : s ≠ ATree.nil) :
    lvl (llink s) + 1 = lvl s ∧ lvl (rlink (rlink s)) ≠ lvl s := by
  have hI := inv_subtree (inv_run cmp ops) hs
  cases s with
  | nil => exact absurd rfl hne
  | node lv d l r =>
    obtain ⟨-, -, hl, -, hrr⟩ := hI
    exact ⟨by simpa using hl, by simp; omega⟩

theorem claim2_invariant_witness :
    lvl (llink (run cmpInt [Op.ins true 2, Op.ins true 1, Op.ins true 3]).root) + 1 =
      lvl (run cmpInt [Op.ins true 2, Op.ins true 1, Op.ins true 3]).root ∧
    lvl (rlink (rlink (run cmpInt [Op.ins true 2, Op.ins true 1, Op.ins true 3]).root)) ≠
      lvl (run cmpInt [Op.ins true 2, Op.ins true 1, Op.ins true 3]).root :=
  claim2_invariant cmpInt [Op.ins true 2, Op.ins true 1, Op.ins true 3] _
    (SubtreeOf.refl _) (by decide)

/-- C3.  Insert atomicity on allocation failure: `jsw_ainsert` fails
exactly when the node allocation fails, and then returns with the tree
structure and size counter completely unchanged; with the allocation
succeeding it always reports success. -/
theorem claim3_insert_alloc (cmp : α → α → Int) (x : α) (t : Jtree α) :
    jsw_ainsert cmp false x t = (false, t) ∧ (jsw_ainsert cmp true x t).1 = true := by
  constructor
  · rw [jsw_ainsert, ainsertGo_false]
  · rw [jsw_ainsert, ainsertGo_true]

/-- C4.  Duplicate routing: the insertion descent goes low exactly when
`cmp(current, new)` is not negative (so ties go low), duplicates are
never rejected or merged — every insert with a successful allocation
succeeds, stores one more node, increments the size, and increments the
count of stored elements comparing equal to the new element. -/
theorem claim4_duplicates {α : Type} (cmp : α → α → Int) (hc : CmpOK cmp)
    (x : α) (t : Jtree α) (lv : Nat) (d : α) (l r : ATree α) :
    (¬ cmp d x < 0 →
      insT cmp x (ATree.node lv d l r) = split (skew (ATree.node lv d (insT cmp x l) r))) ∧
    (cmp d x < 0 →
      insT cmp x (ATree.node lv d l r) = split (skew (ATree.node lv d l (insT cmp x r)))) ∧
    (jsw_ainsert cmp true x t).1 = true ∧
    (jsw_ainsert cmp true x t).2.size = t.size + 1 ∧
    (elems (jsw_ainsert cmp true x t).2.root).length = (elems t.root).length + 1 ∧
    countEq cmp x (elems (jsw_ainsert cmp true x t).2.root) =
      countEq cmp x (elems t.root) + 1 := by
  refine ⟨fun h => by rw [insT, if_neg h], fun h => by rw [insT, if_pos h], ?_, ?_, ?_, ?_⟩
  · rw [jsw_ainsert, ainsertGo_true]
  · rw [jsw_ainsert, ainsertGo_true]
  · rw [jsw_ainsert, ainsertGo_true]
    show (elems (insT cmp x t.root)).length = (elems t.root).length + 1
    rw [(elems_insT cmp x t.root).length_eq]
    simp
  · rw [jsw_ainsert, ainsertGo_true]
    show countEq cmp x (elems (insT cmp x t.root)) = countEq cmp x (elems t.root) + 1
    rw [countEq_perm cmp x (elems_insT cmp x t.root), countEq_cons,
      if_pos (hc.self x)]

theorem claim4_duplicates_witness :
    (¬ cmpInt 7 7 < 0 →
      insT cmpInt 7 (ATree.node 1 7 ATree.nil ATree.nil) =
        split (skew (ATree.node 1 7 (insT cmpInt 7 ATree.nil) ATree.nil))) ∧
    (cmpInt 7 7 < 0 →
      insT cmpInt 7 (ATree.node 1 7 ATree.nil ATree.nil) =
        split (skew (ATree.node 1 7 ATree.nil (insT cmpInt 7 ATree.nil)))) ∧
    (jsw_ainsert cmpInt true 7 (run cmpInt [Op.ins true 7])).1 = true ∧
    (jsw_ainsert cmpInt true 7 (run cmpInt [Op.ins true 7])).2.size =
      (run cmpInt [Op.ins true 7]).size + 1 ∧
    (elems (jsw_ainsert cmpInt true 7 (run cmpInt [Op.ins true 7])).2.root).length =
      (elems (run cmpInt [Op.ins true 7]).root).length + 1 ∧
    countEq cmpInt 7 (elems (jsw_ainsert cmpInt true 7 (run cmpInt [Op.ins true 7])).2.root) =
      countEq cmpInt 7 (elems (run cmpInt [Op.ins true 7]).root) + 1 :=
  claim4_duplicates cmpInt cmpInt_ok 7 (run cmpInt [Op.ins true 7]) 1 7 ATree.nil ATree.nil

/-- C7.  Erase not-found atomicity: if no stored element compares equal
to the probe, `jsw_aerase` reports failure, leaves the tree (root and
size) unchanged, and releases nothing. -/
theorem claim7_erase_not_found (cmp : α → α → Int) (x : α) (t : Jtree α)
    (hno : ∀ y ∈ elems t.root, cmp y x ≠ 0) :
    jsw_aeraseT cmp x t = (false, t, none) := by
  rw [jsw_aeraseT, jsw_aerase_none_of cmp x t.root hno]

theorem claim7_erase_not_found_witness :
    jsw_aeraseT cmpInt 99 (run cmpInt [Op.ins true 5, Op.ins true 3]) =
      (false, run cmpInt [Op.ins true 5, Op.ins true 3], none) :=
  claim7_erase_not_found cmpInt 99 (run cmpInt [Op.ins true 5, Op.ins true 3])
    (by decide)

/-- C9.  Size consistency: after any operation sequence, the size
counter equals (successful inserts) − (successful erases), and never
underflows. -/
theorem claim9_size {α : Type} (cmp : α → α → Int) (hc : CmpOK cmp)
    (ops : List (Op α)) :
    (runCount cmp jsw_anew ops).2.2 ≤ (runCount cmp jsw_anew ops).2.1 ∧
    jsw_asize (runCount cmp jsw_anew ops).1 =
      (runCount cmp jsw_anew ops).2.1 - (runCount cmp jsw_anew ops).2.2 := by
  have h := runCount_size hc ops jsw_anew (good_anew cmp)
  have h0 : (jsw_anew : Jtree α).size = 0 := rfl
  rw [jsw_asize]
  omega

theorem claim9_size_witness :
    (runCount cmpInt jsw_anew [Op.ins true 5, Op.ins true 3, Op.ins false 4,
        Op.del 5, Op.del 9]).2.2 ≤
      (runCount cmpInt jsw_anew [Op.ins true 5, Op.ins true 3, Op.ins false 4,
        Op.del 5, Op.del 9]).2.1 ∧
    jsw_asize (runCount cmpInt jsw_anew [Op.ins true 5, Op.ins true 3, Op.ins false 4,
        Op.del 5, Op.del 9]).1 =
      (runCount cmpInt jsw_anew [Op.ins true 5, Op.ins true 3, Op.ins false 4,
        Op.del 5, Op.del 9]).2.1 -
      (runCount cmpInt jsw_anew [Op.ins true 5, Op.ins true 3, Op.ins false 4,
        Op.del 5, Op.del 9]).2.2 :=
  claim9_size cmpInt cmpInt_ok _

/-- C8.  Destroy release count: `jsw_adelete` releases exactly the
stored elements, once each — i.e. exactly (successful inserts) −
(successful erases) releases after any operation sequence — via the
recursion-free rotate-to-root teardown (which `jsw_adelete` embeds). -/
theorem claim8_destroy {α : Type} (cmp : α → α → Int) (hc : CmpOK cmp)
    (ops : List (Op α)) :
    List.Perm (jsw_adelete (runCount cmp jsw_anew ops).1.root)
      (elems (runCount cmp jsw_anew ops).1.root) ∧
    (jsw_adelete (runCount cmp jsw_anew ops).1.root).length +
        (runCount cmp jsw_anew ops).2.2 =
      (runCount cmp jsw_anew ops).2.1 := by
  refine ⟨jsw_adelete_perm _, ?_⟩
  have h := runCount_size hc ops jsw_anew (good_anew cmp)
  have hG : Good cmp (runCount cmp jsw_anew ops).1 := by
    rw [runCount_fst]
    exact good_foldl hc ops jsw_anew (good_anew cmp)
  have hlen := (jsw_adelete_perm (runCount cmp jsw_anew ops).1.root).length_eq
  have hsz := hG.2.2
  have h0 : (jsw_anew : Jtree α).size = 0 := rfl
  omega

theorem claim8_destroy_witness :
    List.Perm (jsw_adelete (runCount cmpInt jsw_anew [Op.ins true 5, Op.ins true 3,
        Op.del 5]).1.root)
      (elems (runCount cmpInt jsw_anew [Op.ins true 5, Op.ins true 3,
        Op.del 5]).1.root) ∧
    (jsw_adelete (runCount cmpInt jsw_anew [Op.ins true 5, Op.ins true 3,
        Op.del 5]).1.root).length +
        (runCount cmpInt jsw_anew [Op.ins true 5, Op.ins true 3, Op.del 5]).2.2 =
      (runCount cmpInt jsw_anew [Op.ins true 5, Op.ins true 3, Op.del 5]).2.1 :=
  claim8_destroy cmpInt cmpInt_ok _

/-- C10.  Single-child root splice loses nothing: in a reachable tree,
a node whose high child is the sentinel has level 1 and a sentinel low
child; consequently the root-erase splice `tree->root = it->link[1]`
never discards a stored element — a successful root erase removes
exactly the released element. -/
theorem claim10_root_splice (cmp : α → α → Int) (ops : List (Op α)) :
    (∀ lv (d : α) l, SubtreeOf (ATree.node lv d l ATree.nil) (run cmp ops).root →
      lv = 1 ∧ l = ATree.nil) ∧
    (∀ (x m : α) t', jsw_aerase cmp x (run cmp ops).root = some (m, t') →
      List.Perm (elems (run cmp ops).root) (m :: elems t')) := by
  constructor
  · intro lv d l hs
    have hI := inv_subtree (inv_run cmp ops) hs
    obtain ⟨hIl, -, hl, hr, -⟩ := hI
    simp only [lvl_nil] at hr
    have hlv : lv = 1 := by omega
    subst hlv
    exact ⟨rfl, inv_lvl_zero hIl (by omega)⟩
  · intro x m t' h
    exact elems_aerase cmp x (inv_run cmp ops) h

theorem claim10_root_splice_witness :
    (1 = 1 ∧ (ATree.nil : ATree Int) = ATree.nil) ∧
    List.Perm (elems (run cmpInt [Op.ins true 5]).root) (5 :: elems (ATree.nil : ATree Int)) := by
  constructor
  · refine (claim10_root_splice cmpInt [Op.ins true 5]).1 1 5 ATree.nil ?_
    rw [show (run cmpInt [Op.ins true 5]).root = ATree.node 1 5 ATree.nil ATree.nil
      by decide]
    exact SubtreeOf.refl _
  · exact (claim10_root_splice cmpInt [Op.ins true 5]).2 5 5 ATree.nil (by decide)

/-! ### C5: the erase fix-up's demotion target

The claim describes the demotion as "to one more than the LARGER child's
level".  The code demotes by exactly one (`--up->level`), which on the
states reachable during an erase equals one more than the SMALLER
child's level; the larger-child reading disagrees with the code on a
five-node tree. -/

/-- The claim's description of one fix-up step, verbatim: demote the
ancestor's level to one more than the larger child's level, cap the high
child's level to match if it now exceeds it, then the same
skew/skew/skew/split/split sequence. -/
def rebalanceLg : ATree α → ATree α
  | .nil => .nil
  | .node lv d l r =>
    if lvl l < lv - 1 ∨ lvl r < lv - 1 then
      onR split (split (onR (onR skew) (onR skew (skew
        (.node (max (lvl l) (lvl r) + 1) d l
          (if max (lvl l) (lvl r) + 1 < lvl r then
            setLvl (max (lvl l) (lvl r) + 1) r else r))))))
    else .node lv d l r

/-- The amended description of one fix-up step: demote the ancestor's
level to one more than the SMALLER child's level (equivalently, on the
states arising during an erase, by exactly one), cap the high child's
level to match if it now exceeds it, then skew the ancestor, its high
child and its high child's high child, then split the ancestor and its
high child. -/
def rebalanceAm : ATree α → ATree α
  | .nil => .nil
  | .node lv d l r =>
    if lvl l < lv - 1 ∨ lvl r < lv - 1 then
      onR split (split (onR (onR skew) (onR skew (skew
        (.node (min (lvl l) (lvl r) + 1) d l
          (if min (lvl l) (lvl r) + 1 < lvl r then
            setLvl (min (lvl l) (lvl r) + 1) r else r))))))
    else .node lv d l r

/-- `jsw_aerase` with the amended fix-up substituted at every ancestor
of the walk back up. -/
def removeMinAm : ATree α → Option (α × ATree α)
  | .nil => none
  | .node lv d l r =>
    match removeMinAm l with
    | none => some (d, r)
    | some (m, l') => some (m, rebalanceAm (.node lv d l' r))

def eraseGoAm (cmp : α → α → Int) (x : α) : ATree α → Option (α × ATree α)
  | .nil => none
  | .node lv d l r =>
    if cmp d x = 0 then
      if isNil l then some (d, r)
      else if isNil r then some (d, l)
      else (removeMinAm r).map (fun p => (d, rebalanceAm (.node lv p.1 l p.2)))
    else if cmp d x < 0 then
      (eraseGoAm cmp x r).map (fun p => (p.1, rebalanceAm (.node lv d l p.2)))
    else
      (eraseGoAm cmp x l).map (fun p => (p.1, rebalanceAm (.node lv d p.2 r)))

def jsw_aeraseAm (cmp : α → α → Int) (x : α) : ATree α → Option (α × ATree α)
  | .nil => none
  | .node lv d l r =>
    if cmp d x = 0 then
      if isNil l ∨ isNil r then some (d, r)
      else (removeMinAm r).map (fun p => (d, rebalanceAm (.node lv p.1 l p.2)))
    else if cmp d x < 0 then
      (eraseGoAm cmp x r).map (fun p => (p.1, rebalanceAm (.node lv d l p.2)))
    else
      (eraseGoAm cmp x l).map (fun p => (p.1, rebalanceAm (.node lv d p.2 r)))

/-- On the ancestor states arising during an erase (children's levels at
most one below what the invariant demanded), demoting by one IS demoting
to one more than the smaller child's level. -/
theorem rebalanceAm_eq_rebalance {lv : Nat} {d : α} {l r : ATree α}
    (h1 : lv ≤ lvl l + 2) (h2 : lvl l < lv)
    (h3 : lv ≤ lvl r + 2) (h4 : lvl r ≤ lv) :
    rebalanceAm (ATree.node lv d l r) = rebalance (ATree.node lv d l r) := by
  rw [rebalanceAm, rebalance]
  split
  · rw [show min (lvl l) (lvl r) + 1 = lv - 1 by omega]
  · rfl

theorem removeMinAm_eq : ∀ t : ATree α, Inv t → removeMinAm t = removeMin t := by
  intro t
  induction t with
  | nil => intro _; rfl
  | node lv d l r ihl ihr =>
    intro hInv
    obtain ⟨hIl, hIr, hl, hr, hrr⟩ := hInv
    rw [removeMinAm, removeMin, ihl hIl]
    cases hml : removeMin l with
    | none => rfl
    | some p =>
      obtain ⟨m0, l'⟩ := p
      obtain ⟨-, hlv', -⟩ := removeMin_spec l hIl m0 l' hml
      show some (m0, rebalanceAm (ATree.node lv d l' r)) =
        some (m0, rebalance (ATree.node lv d l' r))
      rw [rebalanceAm_eq_rebalance (by omega) (by omega) (by omega) (by omega)]

theorem eraseGoAm_eq (cmp : α → α → Int) (x : α) :
    ∀ t : ATree α, Inv t → eraseGoAm cmp x t = eraseGo cmp x t := by
  intro t
  induction t with
  | nil => intro _; rfl
  | node lv d l r ihl ihr =>
    intro hInv
    obtain ⟨hIl, hIr, hl, hr, hrr⟩ := hInv
    rw [eraseGoAm, eraseGo]
    by_cases hc0 : cmp d x = 0
    · rw [if_pos hc0, if_pos hc0]
      cases hli : isNil l with
      | true => rfl
      | false =>
        simp only [Bool.false_eq_true, if_false]
        cases hri : isNil r with
        | true => rfl
        | false =>
          simp only [Bool.false_eq_true, if_false]
          rw [removeMinAm_eq r hIr]
          cases hmr : removeMin r with
          | none => rfl
          | some p =>
            obtain ⟨m0, r''⟩ := p
            obtain ⟨-, hlv'', -⟩ := removeMin_spec r hIr m0 r'' hmr
            simp only [Option.map_some', Option.some.injEq, Prod.mk.injEq]
            rw [rebalanceAm_eq_rebalance (by omega) (by omega) (by omega) (by omega)]
            exact ⟨trivial, rfl⟩
    · rw [if_neg hc0, if_neg hc0]
      by_cases hcl : cmp d x < 0
      · rw [if_pos hcl, if_pos hcl, ihr hIr]
        cases hme : eraseGo cmp x r with
        | none => rfl
        | some p =>
          obtain ⟨m0, r'⟩ := p
          obtain ⟨-, hlv', -⟩ := eraseGo_spec cmp x r hIr m0 r' hme
          simp only [Option.map_some', Option.some.injEq, Prod.mk.injEq]
          rw [rebalanceAm_eq_rebalance (by omega) (by omega) (by omega) (by omega)]
          exact ⟨trivial, rfl⟩
      · rw [if_neg hcl, if_neg hcl, ihl hIl]
        cases hme : eraseGo cmp x l with
        | none => rfl
        | some p =>
          obtain ⟨m0, l'⟩ := p
          obtain ⟨-, hlv', -⟩ := eraseGo_spec cmp x l hIl m0 l' hme
          simp only [Option.map_some', Option.some.injEq, Prod.mk.injEq]
          rw [rebalanceAm_eq_rebalance (by omega) (by omega) (by omega) (by omega)]
          exact ⟨trivial, rfl⟩

/-- C5 (counterexample).  Erasing 1 from the reachable five-node tree
{1..5} succeeds; the walk back up processes exactly one ancestor — the
root, whose low child's level has fallen more than one below its own —
and the fix-up the code applies there (demote by one: the root ends at
level 2) differs from the step the claim describes (demote to one more
than the larger child's level, i.e. to 3). -/
theorem claim5_counterexample :
    (run cmpInt [Op.ins true 1, Op.ins true 2, Op.ins true 3, Op.ins true 4,
        Op.ins true 5]).root =
      ATree.node 2 2 (ATree.node 1 1 ATree.nil ATree.nil)
        (ATree.node 2 4 (ATree.node 1 3 ATree.nil ATree.nil)
          (ATree.node 1 5 ATree.nil ATree.nil)) ∧
    jsw_aerase cmpInt 1
        (run cmpInt [Op.ins true 1, Op.ins true 2, Op.ins true 3, Op.ins true 4,
          Op.ins true 5]).root =
      some (1, rebalance (ATree.node 2 2 ATree.nil
        (ATree.node 2 4 (ATree.node 1 3 ATree.nil ATree.nil)
          (ATree.node 1 5 ATree.nil ATree.nil)))) ∧
    (lvl (ATree.nil : ATree Int) < 2 - 1 ∨
      lvl (ATree.node 2 (4 : Int) (ATree.node 1 3 ATree.nil ATree.nil)
        (ATree.node 1 5 ATree.nil ATree.nil)) < 2 - 1) ∧
    rebalanceLg (ATree.node 2 (2 : Int) ATree.nil
        (ATree.node 2 4 (ATree.node 1 3 ATree.nil ATree.nil)
          (ATree.node 1 5 ATree.nil ATree.nil))) ≠
      rebalance (ATree.node 2 (2 : Int) ATree.nil
        (ATree.node 2 4 (ATree.node 1 3 ATree.nil ATree.nil)
          (ATree.node 1 5 ATree.nil ATree.nil))) := by
  refine ⟨by decide, by decide, by decide, by decide⟩

/-- C5 (amended).  For every successful erase on a reachable tree, the
walk back up applies, at each ancestor whose child's level has fallen
more than one below its own, the fix-up with the level demoted to one
more than the SMALLER child's level (capping the high child to match if
it now exceeds), then skew at the ancestor, its high child and its high
child's high child, then split at the ancestor and its high child, the
result being relinked into the parent (or the root): the erase built
from that description is extensionally the code's erase. -/
theorem claim5_amended (cmp : α → α → Int) (x : α) {t : ATree α} (hInv : Inv t) :
    jsw_aeraseAm cmp x t = jsw_aerase cmp x t := by
  cases t with
  | nil => rfl
  | node lv d l r =>
    obtain ⟨hIl, hIr, hl, hr, hrr⟩ := hInv
    rw [jsw_aeraseAm, jsw_aerase]
    by_cases hc0 : cmp d x = 0
    · rw [if_pos hc0, if_pos hc0]
      by_cases hnil : isNil l ∨ isNil r
      · rw [if_pos hnil, if_pos hnil]
      · rw [if_neg hnil, if_neg hnil, removeMinAm_eq r hIr]
        cases hmr : removeMin r with
        | none => rfl
        | some p =>
          obtain ⟨m0, r''⟩ := p
          obtain ⟨-, hlv'', -⟩ := removeMin_spec r hIr m0 r'' hmr
          simp only [Option.map_some', Option.some.injEq, Prod.mk.injEq]
          rw [rebalanceAm_eq_rebalance (by omega) (by omega) (by omega) (by omega)]
          exact ⟨trivial, rfl⟩
    · rw [if_neg hc0, if_neg hc0]
      by_cases hcl : cmp d x < 0
      · rw [if_pos hcl, if_pos hcl, eraseGoAm_eq cmp x r hIr]
        cases hme : eraseGo cmp x r with
        | none => rfl
        | some p =>
          obtain ⟨m0, r'⟩ := p
          obtain ⟨-, hlv', -⟩ := eraseGo_spec cmp x r hIr m0 r' hme
          simp only [Option.map_some', Option.some.injEq, Prod.mk.injEq]
          rw [rebalanceAm_eq_rebalance (by omega) (by omega) (by omega) (by omega)]
          exact ⟨trivial, rfl⟩
      · rw [if_neg hcl, if_neg hcl, eraseGoAm_eq cmp x l hIl]
        cases hme : eraseGo cmp x l with
        | none => rfl
        | some p =>
          obtain ⟨m0, l'⟩ := p
          obtain ⟨-, hlv', -⟩ := eraseGo_spec cmp x l hIl m0 l' hme
          simp only [Option.map_some', Option.some.injEq, Prod.mk.injEq]
          rw [rebalanceAm_eq_rebalance (by omega) (by omega) (by omega) (by omega)]
          exact ⟨trivial, rfl⟩

theorem claim5_amended_witness :
    jsw_aeraseAm cmpInt 1 (run cmpInt [Op.ins true 1, Op.ins true 2, Op.ins true 3,
        Op.ins true 4, Op.ins true 5]).root =
      jsw_aerase cmpInt 1 (run cmpInt [Op.ins true 1, Op.ins true 2, Op.ins true 3,
        Op.ins true 4, Op.ins true 5]).root :=
  claim5_amended cmpInt 1 (inv_run cmpInt _)

/-! ### The traversal cursor

The C cursor stores node POINTERS (`trav->it`, `trav->path[]`) and the
climb in `move` compares pointers (`last == it->link[dir]`).  Every node
of a tree built by this library is a separate allocation and the
structure is a genuine tree, so a pointer to a real node is faithfully
modeled by the node's position (the list of link directions from the
root), and pointer equality by position equality; the pointer to the
shared sentinel is modeled by `none` (for `trav->it`) or by the nil-ness
of the addressed link.  The path stack holds positions, most recent
first (C's `path[top-1]`). -/

/-- `it->link[dir]`; the sentinel's links point to itself. -/
def child (d : Bool) : ATree α → ATree α
  | .nil => .nil
  | .node _ _ l r => if d then r else l

/-- The subtree at a position. -/
def sub : ATree α → List Bool → ATree α
  | t, [] => t
  | t, d :: p => sub (child d t) p

theorem sub_nil_pos (t : ATree α) : sub t [] = t := rfl

theorem sub_cons (t : ATree α) (d : Bool) (p : List Bool) :
    sub t (d :: p) = sub (child d t) p := rfl

theorem sub_snoc (t : ATree α) (d : Bool) :
    ∀ p, sub t (p ++ [d]) = child d (sub t p) := by
  intro p
  induction p generalizing t with
  | nil => rfl
  | cons e p ih => rw [List.cons_append, sub_cons, sub_cons, ih]

/-- The proper prefixes of a position, longest first: the ancestor chain
a well-formed cursor stack holds. -/
def ancs (p : List Bool) : List (List Bool) :=
  ((List.range p.length).reverse).map (fun k => List.take k p)

theorem ancs_nil_pos : ancs ([] : List Bool) = [] := rfl

theorem ancs_snoc (p : List Bool) (e : Bool) : ancs (p ++ [e]) = p :: ancs p := by
  unfold ancs
  rw [List.length_append, List.length_singleton, List.range_succ, List.reverse_append]
  simp only [List.reverse_singleton, List.singleton_append, List.map_cons]
  have h1 : List.take p.length (p ++ [e]) = p := by
    simp
  have h2 : ∀ k ∈ (List.range p.length).reverse,
      List.take k (p ++ [e]) = List.take k p := by
    intro k hk
    simp only [List.mem_reverse, List.mem_range] at hk
    rw [List.take_append_of_le_length (by omega)]
  rw [h1, List.map_congr_left h2]

/-- The descent loops of `start` and `move`: while the current node's
`dir` link is a real node, push the current node and follow the link. -/
def sdesc (t : ATree α) (c : Bool) (p : List Bool) (stk : List (List Bool)) :
    List Bool × List (List Bool) :=
  if isNil (child c (sub t p)) then (p, stk)
  else sdesc t c (p ++ [c]) (p :: stk)
termination_by asize (sub t p)
decreasing_by
  rename_i h
  rw [sub_snoc]
  cases hs : sub t p with
  | nil => rw [hs] at h; simp [child, isNil] at h
  | node lv d l r =>
    cases c <;> simp [child, asize] <;> omega

/-- Pointer comparison `last == it->link[dir]` of the climb loop:
`last` is the position of the old current node (or the sentinel), `q`
the position of the newly popped ancestor. -/
def pcmp (t : ATree α) (d : Bool) (last : Option (List Bool)) (q : List Bool) : Bool :=
  match last with
  | some c => decide (c = q ++ [d])
  | none => isNil (child d (sub t q))

/-- The climb loop of `move`: pop ancestors while the previous node was
the popped ancestor's `dir` child; an exhausted stack ends the
traversal (`trav->it = nil`, stack empty). -/
def climb (t : ATree α) (d : Bool) :
    Option (List Bool) → List (List Bool) → Option (List Bool) × List (List Bool)
  | _, [] => (none, [])
  | last, q :: rest => if pcmp t d last q then climb t d (some q) rest else (some q, rest)

/-- The `jsw_atrav` structure (current node and path stack, positional). -/
structure Atrav (α : Type) where
  tree : ATree α
  pos : Option (List Bool)
  path : List (List Bool)

/-- `start`: bind the cursor to the tree and walk to the `dir`-extreme
node, stacking the path; returns the element there (the sentinel's
`NULL` on an empty tree). -/
def start (tr : ATree α) (d : Bool) : Atrav α × Option α :=
  match tr with
  | .nil => (⟨tr, none, []⟩, none)
  | .node _ _ _ _ =>
    let pr := sdesc tr d [] []
    (⟨tr, some pr.1, pr.2⟩, dataOf (sub tr pr.1))

/-- `move`: if the current node has a real `dir` child, step into it and
walk to that subtree's `!dir`-extreme node (stacking the path);
otherwise climb the stack to the first ancestor not entered from its
`dir` side.  Returns the new current element (`NULL` past the end). -/
def move (tv : Atrav α) (d : Bool) : Atrav α × Option α :=
  match tv.pos with
  | none =>
    let cr := climb tv.tree d none tv.path
    (⟨tv.tree, cr.1, cr.2⟩, cr.1.bind (fun q => dataOf (sub tv.tree q)))
  | some p =>
    if isNil (child d (sub tv.tree p)) then
      let cr := climb tv.tree d (some p) tv.path
      (⟨tv.tree, cr.1, cr.2⟩, cr.1.bind (fun q => dataOf (sub tv.tree q)))
    else
      let pr := sdesc tv.tree (!d) (p ++ [d]) (p :: tv.path)
      (⟨tv.tree, some pr.1, pr.2⟩, dataOf (sub tv.tree pr.1))

def jsw_atfirst (tr : ATree α) : Atrav α × Option α := start tr false

def jsw_atlast (tr : ATree α) : Atrav α × Option α := start tr true

def jsw_atnext (tv : Atrav α) : Atrav α × Option α := move tv true

def jsw_atprev (tv : Atrav α) : Atrav α × Option α := move tv false

/-- Repeated `jsw_atnext` (`d = true`) / `jsw_atprev` (`d = false`)
until the end of the sequence, collecting the returned elements. -/
def moves (d : Bool) : Nat → Atrav α → List α
  | 0, _ => []
  | fuel + 1, tv =>
    match move tv d with
    | (tv', some x) => x :: moves d fuel tv'
    | (_, none) => []

/-- The full traversal: `jsw_atfirst` then repeated `jsw_atnext`
(forward, `fwd = true`), or `jsw_atlast` then repeated `jsw_atprev`. -/
def traversal (fwd : Bool) (t : ATree α) : List α :=
  match (if fwd then jsw_atfirst t else jsw_atlast t) with
  | (_, none) => []
  | (tv, some x) => x :: moves fwd (asize t) tv

/-- The positions of the tree's nodes in the order the cursor visits
them when advancing in direction `d`. -/
def iop : Bool → ATree α → List (List Bool)
  | _, .nil => []
  | true, .node _ _ l r =>
    (iop true l).map (fun p => false :: p) ++ [] :: (iop true r).map (fun p => true :: p)
  | false, .node _ _ l r =>
    (iop false r).map (fun p => true :: p) ++ [] :: (iop false l).map (fun p => false :: p)

/-- The `c`-extreme descent path from a node. -/
def cdesc : Bool → ATree α → List Bool
  | _, .nil => []
  | true, .node _ _ _ .nil => []
  | true, .node _ _ _ (.node rv rd rl rr) => true :: cdesc true (.node rv rd rl rr)
  | false, .node _ _ .nil _ => []
  | false, .node _ _ (.node lv2 ld ll lr) _ => false :: cdesc false (.node lv2 ld ll lr)

/-- Pure description of the climb: strip the trailing `d` steps off the
position (processed in reverse); the next stop is just above the first
`!d` step, and a position of only `d` steps climbs off the root. -/
def stripRev (d : Bool) : List Bool → Option (List Bool)
  | [] => none
  | e :: rest => if e = d then stripRev d rest else some rest.reverse

def climbPos (d : Bool) (p : List Bool) : Option (List Bool) :=
  stripRev d p.reverse

/-- Pure description of one `move` on a well-formed cursor state. -/
def stepPos (t : ATree α) (d : Bool) (p : List Bool) : Option (List Bool) :=
  ((move ⟨t, some p, ancs p⟩ d).1).pos

@[simp] theorem child_nil (d : Bool) : child d (ATree.nil : ATree α) = ATree.nil := by
  cases d <;> rfl

@[simp] theorem child_node (d : Bool) (lv : Nat) (x : α) (l r : ATree α) :
    child d (ATree.node lv x l r) = if d then r else l := rfl

@[simp] theorem isNil_nil : isNil (ATree.nil : ATree α) = true := rfl

@[simp] theorem isNil_node (lv : Nat) (x : α) (l r : ATree α) :
    isNil (ATree.node lv x l r) = false := rfl

theorem cdesc_stop (c : Bool) (s : ATree α) (h : isNil (child c s)) : cdesc c s = [] := by
  cases s with
  | nil => cases c <;> rfl
  | node lv x l r =>
    cases c with
    | false =>
      simp only [child_node, if_false, Bool.false_eq_true] at h
      cases l with
      | nil => rfl
      | node a b cc dd => simp [isNil] at h
    | true =>
      simp only [child_node, if_true] at h
      cases r with
      | nil => rfl
      | node a b cc dd => simp [isNil] at h

theorem cdesc_go (c : Bool) (s : ATree α) (h : ¬ isNil (child c s)) :
    cdesc c s = c :: cdesc c (child c s) := by
  cases s with
  | nil => simp at h
  | node lv x l r =>
    cases c with
    | false =>
      simp only [child_node, if_false, Bool.false_eq_true] at h ⊢
      cases l with
      | nil => simp [isNil] at h
      | node a b cc dd => rfl
    | true =>
      simp only [child_node, if_true] at h ⊢
      cases r with
      | nil => simp [isNil] at h
      | node a b cc dd => rfl

/-- The descent loop lands on the `c`-extreme node of the subtree it
started from, and keeps the stack as the ancestor chain. -/
theorem sdesc_ancs (t : ATree α) (c : Bool) :
    ∀ (n : Nat) (q : List Bool), asize (sub t q) ≤ n →
      sdesc t c q (ancs q) =
        (q ++ cdesc c (sub t q), ancs (q ++ cdesc c (sub t q))) := by
  intro n
  induction n with
  | zero =>
    intro q hq
    rw [sdesc]
    have hz : sub t q = ATree.nil := by
      cases hs : sub t q with
      | nil => rfl
      | node lv x l r => rw [hs] at hq; simp [asize] at hq
    rw [hz]
    simp [cdesc]
  | succ n ih =>
    intro q hq
    rw [sdesc]
    by_cases h : isNil (child c (sub t q))
    · rw [if_pos h, cdesc_stop c _ h]
      simp
    · rw [if_neg h]
      have hsz : asize (sub t (q ++ [c])) ≤ n := by
        rw [sub_snoc]
        cases hs : sub t q with
        | nil => rw [hs] at h; simp at h
        | node lv x l r =>
          rw [hs] at hq
          simp only [asize] at hq
          cases c <;> simp [child_node, asize] <;> omega
      have := ih (q ++ [c]) hsz
      rw [ancs_snoc] at this
      rw [this, cdesc_go c _ h, sub_snoc]
      simp

theorem stripRev_snoc (d e : Bool) (l : List Bool) :
    stripRev d (l ++ [e]) =
      match stripRev d l with
      | none => if e = d then none else some []
      | some q => some (e :: q) := by
  induction l with
  | nil =>
    simp only [List.nil_append]
    rw [stripRev, stripRev]
    by_cases he : e = d <;> simp [he, stripRev]
  | cons a l ih =>
    rw [List.cons_append, stripRev, stripRev]
    by_cases ha : a = d
    · rw [if_pos ha, if_pos ha, ih]
    · rw [if_neg ha, if_neg ha]
      simp

theorem climbPos_nil_pos (d : Bool) : climbPos d [] = none := rfl

theorem climbPos_cons (d e : Bool) (p : List Bool) :
    climbPos d (e :: p) =
      match climbPos d p with
      | none => if e = d then none else some []
      | some q => some (e :: q) := by
  unfold climbPos
  rw [List.reverse_cons, stripRev_snoc]

theorem pcmp_snoc (t : ATree α) (d e : Bool) (q : List Bool) :
    pcmp t d (some (q ++ [e])) q = decide (e = d) := by
  simp [pcmp]

/-- The climb loop on a well-formed state computes `climbPos` and leaves
the stack well-formed. -/
theorem climb_ancs (t : ATree α) (d : Bool) (p : List Bool) :
    climb t d (some p) (ancs p) =
      (climbPos d p,
        match climbPos d p with
        | none => []
        | some q => ancs q) := by
  induction p using List.reverseRecOn with
  | nil => rfl
  | append_singleton q e ih =>
    rw [ancs_snoc, climb, pcmp_snoc]
    by_cases he : e = d
    · rw [if_pos (by simp [he]), ih, he]
      unfold climbPos
      rw [List.reverse_append, List.reverse_singleton, List.singleton_append, stripRev,
        if_pos rfl]
    · rw [if_neg (by simp [he])]
      unfold climbPos
      rw [List.reverse_append, List.reverse_singleton, List.singleton_append, stripRev,
        if_neg he, List.reverse_reverse]

/-- `stepPos` in closed form. -/
theorem stepPos_eq (t : ATree α) (d : Bool) (p : List Bool) :
    stepPos t d p =
      if isNil (child d (sub t p)) then climbPos d p
      else some ((p ++ [d]) ++ cdesc (!d) (sub t (p ++ [d]))) := by
  show ((if isNil (child d (sub t p)) then
        ((⟨t, (climb t d (some p) (ancs p)).1, (climb t d (some p) (ancs p)).2⟩ : Atrav α),
          ((climb t d (some p) (ancs p)).1).bind fun q => dataOf (sub t q))
      else
        ((⟨t, some (sdesc t (!d) (p ++ [d]) (p :: ancs p)).1,
            (sdesc t (!d) (p ++ [d]) (p :: ancs p)).2⟩ : Atrav α),
          dataOf (sub t (sdesc t (!d) (p ++ [d]) (p :: ancs p)).1))).1).pos = _
  by_cases h : isNil (child d (sub t p))
  · rw [if_pos h, if_pos h]
    show (climb t d (some p) (ancs p)).1 = climbPos d p
    rw [climb_ancs]
  · rw [if_neg h, if_neg h]
    show some (sdesc t (!d) (p ++ [d]) (p :: ancs p)).1 = _
    rw [show p :: ancs p = ancs (p ++ [d]) from (ancs_snoc p d).symm,
      sdesc_ancs t (!d) (asize (sub t (p ++ [d]))) (p ++ [d]) (le_refl _)]

/-- One `move` on a well-formed cursor: the new position is `stepPos`,
the stack stays the ancestor chain, and the returned element is the one
at the new position. -/
theorem move_wf (t : ATree α) (d : Bool) (p : List Bool) :
    move ⟨t, some p, ancs p⟩ d =
      (⟨t, stepPos t d p,
          match stepPos t d p with
          | none => []
          | some q => ancs q⟩,
        match stepPos t d p with
        | none => none
        | some q => dataOf (sub t q)) := by
  show (if isNil (child d (sub t p)) then
        ((⟨t, (climb t d (some p) (ancs p)).1, (climb t d (some p) (ancs p)).2⟩ : Atrav α),
          ((climb t d (some p) (ancs p)).1).bind fun q => dataOf (sub t q))
      else
        ((⟨t, some (sdesc t (!d) (p ++ [d]) (p :: ancs p)).1,
            (sdesc t (!d) (p ++ [d]) (p :: ancs p)).2⟩ : Atrav α),
          dataOf (sub t (sdesc t (!d) (p ++ [d]) (p :: ancs p)).1))) = _
  by_cases h : isNil (child d (sub t p))
  · have hs : stepPos t d p = climbPos d p := by
      rw [stepPos_eq, if_pos h]
    rw [if_pos h, climb_ancs, hs]
    cases climbPos d p <;> rfl
  · have hs : stepPos t d p = some ((p ++ [d]) ++ cdesc (!d) (sub t (p ++ [d]))) := by
      rw [stepPos_eq, if_neg h]
    rw [if_neg h, hs,
      show p :: ancs p = ancs (p ++ [d]) from (ancs_snoc p d).symm,
      sdesc_ancs t (!d) (asize (sub t (p ++ [d]))) (p ++ [d]) (le_refl _)]


theorem iop_node_eq (d : Bool) (lv : Nat) (x : α) (l r : ATree α) :
    iop d (ATree.node lv x l r) =
      ((iop d (child (!d) (ATree.node lv x l r))).map (fun p => (!d) :: p)) ++
        [] :: ((iop d (child d (ATree.node lv x l r))).map (fun p => d :: p)) := by
  cases d <;> rfl

theorem iop_eq_nil_iff (d : Bool) (t : ATree α) : iop d t = [] ↔ isNil t = true := by
  cases t with
  | nil => cases d <;> simp [iop]
  | node lv x l r => cases d <;> simp [iop]

theorem iop_length (d : Bool) : ∀ t : ATree α, (iop d t).length = asize t := by
  intro t
  induction t with
  | nil => cases d <;> rfl
  | node lv x l r ihl ihr =>
    cases d <;> simp [iop, asize, ihl, ihr] <;> omega

theorem iop_real (d : Bool) :
    ∀ t : ATree α, ∀ p ∈ iop d t, isNil (sub t p) = false := by
  intro t
  induction t with
  | nil => intro p hp; cases d <;> simp [iop] at hp
  | node lv x l r ihl ihr =>
    intro p hp
    cases d with
    | false =>
      simp only [iop, List.mem_append, List.mem_cons, List.mem_map] at hp
      rcases hp with ⟨q, hq, rfl⟩ | rfl | ⟨q, hq, rfl⟩
      · exact ihr q hq
      · rfl
      · exact ihl q hq
    | true =>
      simp only [iop, List.mem_append, List.mem_cons, List.mem_map] at hp
      rcases hp with ⟨q, hq, rfl⟩ | rfl | ⟨q, hq, rfl⟩
      · exact ihl q hq
      · rfl
      · exact ihr q hq

theorem stepPos_cons_some (lv : Nat) (x : α) (l r : ATree α) (d e : Bool)
    (p q : List Bool)
    (h : stepPos (child e (ATree.node lv x l r)) d p = some q) :
    stepPos (ATree.node lv x l r) d (e :: p) = some (e :: q) := by
  rw [stepPos_eq] at h ⊢
  rw [sub_cons]
  by_cases hn : isNil (child d (sub (child e (ATree.node lv x l r)) p))
  · rw [if_pos hn] at h ⊢
    rw [climbPos_cons, h]
  · rw [if_neg hn] at h ⊢
    rw [Option.some.injEq] at h
    subst h
    simp only [Option.some.injEq]
    simp only [List.cons_append, sub_cons]

theorem stepPos_cons_none (lv : Nat) (x : α) (l r : ATree α) (d e : Bool)
    (p : List Bool)
    (h : stepPos (child e (ATree.node lv x l r)) d p = none) :
    stepPos (ATree.node lv x l r) d (e :: p) = if e = d then none else some [] := by
  rw [stepPos_eq] at h
  by_cases hn : isNil (child d (sub (child e (ATree.node lv x l r)) p))
  · rw [if_pos hn] at h
    rw [stepPos_eq, sub_cons, if_pos hn, climbPos_cons, h]
  · rw [if_neg hn] at h
    exact absurd h (by simp)

theorem stepPos_root (lv : Nat) (x : α) (l r : ATree α) (d : Bool) :
    stepPos (ATree.node lv x l r) d [] =
      if isNil (child d (ATree.node lv x l r)) then none
      else some (d :: cdesc (!d) (child d (ATree.node lv x l r))) := by
  rw [stepPos_eq, sub_nil_pos]
  by_cases hn : isNil (child d (ATree.node lv x l r))
  · rw [if_pos hn, if_pos hn]
    rfl
  · rw [if_neg hn, if_neg hn]
    simp only [Option.some.injEq, List.nil_append, List.singleton_append, sub_cons,
      sub_nil_pos]

theorem optOrSome {β : Type} (a : β) (o : Option β) : (Option.some a).or o = some a := rfl

/-- The four facts the traversal induction carries: first visited
position, last visited position, the step relation linking consecutive
positions, and termination after the last one. -/
def IopOK (d : Bool) (t : ATree α) : Prop :=
  ((iop d t).head? = if isNil t then none else some (cdesc (!d) t)) ∧
  ((iop d t).getLast? = if isNil t then none else some (cdesc d t)) ∧
  List.Chain' (fun a b => stepPos t d a = some b) (iop d t) ∧
  (∀ p, (iop d t).getLast? = some p → stepPos t d p = none)

theorem iopOK_nil (d : Bool) : IopOK d (ATree.nil : ATree α) := by
  refine ⟨?_, ?_, ?_, ?_⟩ <;> cases d <;> simp [iop, IopOK, isNil]

theorem iopOK_node (d : Bool) (t : ATree α) (lv : Nat) (x : α) (l r : ATree α)
    (ht : t = ATree.node lv x l r)
    (h1 : IopOK d (child (!d) t)) (h2 : IopOK d (child d t)) : IopOK d t := by
  obtain ⟨h1h, h1l, h1c, h1n⟩ := h1
  obtain ⟨h2h, h2l, h2c, h2n⟩ := h2
  have htn : isNil t = false := by rw [ht]; rfl
  have hiop : iop d t =
      ((iop d (child (!d) t)).map (fun p => (!d) :: p)) ++
        [] :: ((iop d (child d t)).map (fun p => d :: p)) := by
    rw [ht]; exact iop_node_eq d lv x l r
  have hcons : ∀ e p q, stepPos (child e t) d p = some q →
      stepPos t d (e :: p) = some (e :: q) := by
    rw [ht]; exact fun e => stepPos_cons_some lv x l r d e
  have hcnone : ∀ e p, stepPos (child e t) d p = none →
      stepPos t d (e :: p) = if e = d then none else some [] := by
    rw [ht]; exact fun e => stepPos_cons_none lv x l r d e
  have hroot : stepPos t d [] =
      if isNil (child d t) then none
      else some (d :: cdesc (!d) (child d t)) := by
    rw [ht]; exact stepPos_root lv x l r d
  have hlast : (iop d t).getLast? = if isNil t then none else some (cdesc d t) := by
    rw [hiop, List.getLast?_append]
    by_cases hn2 : isNil (child d t)
    · have hB : iop d (child d t) = [] := (iop_eq_nil_iff d _).mpr hn2
      rw [hB, cdesc_stop d t hn2]
      simp [htn]
    · rw [show ([] : List Bool) :: (iop d (child d t)).map (fun p => d :: p) =
          [([] : List Bool)] ++ (iop d (child d t)).map (fun p => d :: p) from rfl,
        List.getLast?_append, List.getLast?_map, h2l, if_neg hn2]
      simp only [Option.map_some', optOrSome, htn, Bool.false_eq_true, if_false]
      rw [cdesc_go d t hn2]
  refine ⟨?_, hlast, ?_, ?_⟩
  · rw [hiop, List.head?_append, List.head?_map, h1h]
    by_cases hn1 : isNil (child (!d) t)
    · rw [if_pos hn1, cdesc_stop (!d) t hn1]
      simp [htn]
    · rw [if_neg hn1]
      simp only [Option.map_some', optOrSome, htn, Bool.false_eq_true, if_false]
      rw [cdesc_go (!d) t hn1]
  · rw [hiop, List.chain'_append]
    refine ⟨?_, ?_, ?_⟩
    · rw [List.chain'_map]
      exact List.Chain'.imp (fun a b hab => hcons (!d) a b hab) h1c
    · rw [List.chain'_cons']
      constructor
      · intro y hy
        rw [List.head?_map, h2h] at hy
        by_cases hn2 : isNil (child d t)
        · rw [if_pos hn2] at hy; simp at hy
        · rw [if_neg hn2] at hy
          simp only [Option.map_some', Option.mem_def, Option.some.injEq] at hy
          subst hy
          rw [hroot, if_neg hn2]
      · rw [List.chain'_map]
        exact List.Chain'.imp (fun a b hab => hcons d a b hab) h2c
    · intro a ha b hb
      simp only [List.head?_cons, Option.mem_def, Option.some.injEq] at hb
      subst hb
      rw [List.getLast?_map, Option.mem_def] at ha
      cases hA : (iop d (child (!d) t)).getLast? with
      | none => rw [hA] at ha; simp at ha
      | some p1 =>
        rw [hA] at ha
        simp only [Option.map_some', Option.some.injEq] at ha
        subst ha
        have hstep := hcnone (!d) p1 (h1n p1 hA)
        rw [hstep, if_neg (by cases d <;> simp)]
  · intro p hp
    rw [hlast] at hp
    simp only [htn, Bool.false_eq_true, if_false, Option.some.injEq] at hp
    subst hp
    by_cases hn2 : isNil (child d t)
    · rw [cdesc_stop d t hn2, hroot, if_pos hn2]
    · rw [cdesc_go d t hn2]
      have hc2 : (iop d (child d t)).getLast? = some (cdesc d (child d t)) := by
        rw [h2l, if_neg hn2]
      have hstep := hcnone d _ (h2n _ hc2)
      rw [hstep, if_pos rfl]

theorem iopOK_all (d : Bool) : ∀ t : ATree α, IopOK d t := by
  intro t
  induction t with
  | nil => exact iopOK_nil d
  | node lv x l r ihl ihr =>
    cases d with
    | false => exact iopOK_node false _ lv x l r rfl ihr ihl
    | true => exact iopOK_node true _ lv x l r rfl ihl ihr

theorem move_wf_some (t : ATree α) (d : Bool) (p q : List Bool)
    (h : stepPos t d p = some q) :
    move ⟨t, some p, ancs p⟩ d = (⟨t, some q, ancs q⟩, dataOf (sub t q)) := by
  rw [move_wf, h]

theorem move_wf_none (t : ATree α) (d : Bool) (p : List Bool)
    (h : stepPos t d p = none) :
    move ⟨t, some p, ancs p⟩ d = (⟨t, none, []⟩, none) := by
  rw [move_wf, h]

theorem start_wf (lv : Nat) (x : α) (l r : ATree α) (c : Bool) :
    start (ATree.node lv x l r) c =
      (⟨ATree.node lv x l r, some (cdesc c (ATree.node lv x l r)),
        ancs (cdesc c (ATree.node lv x l r))⟩,
       dataOf (sub (ATree.node lv x l r) (cdesc c (ATree.node lv x l r)))) := by
  show ((⟨ATree.node lv x l r, some (sdesc (ATree.node lv x l r) c [] []).1,
      (sdesc (ATree.node lv x l r) c [] []).2⟩ : Atrav α),
    dataOf (sub (ATree.node lv x l r) (sdesc (ATree.node lv x l r) c [] []).1)) = _
  have h := sdesc_ancs (ATree.node lv x l r) c
      (asize (sub (ATree.node lv x l r) ([] : List Bool))) [] (le_refl _)
  rw [show (ancs ([] : List Bool)) = [] from rfl] at h
  rw [h]
  simp only [List.nil_append, sub_nil_pos]

/-- Iterating `move` from a well-formed state along a step chain that
ends where stepping yields nil collects exactly the data at the listed
positions. -/
theorem moves_spec (t : ATree α) (d : Bool) :
    ∀ (L : List (List Bool)) (fuel : Nat) (p : List Bool),
      L.length ≤ fuel →
      List.Chain' (fun a b => stepPos t d a = some b) (p :: L) →
      (∀ q, (p :: L).getLast? = some q → stepPos t d q = none) →
      (∀ q ∈ L, isNil (sub t q) = false) →
      (moves d fuel ⟨t, some p, ancs p⟩).map some =
        L.map (fun q => dataOf (sub t q)) := by
  intro L
  induction L with
  | nil =>
    intro fuel p hf hc hl hr
    have hstep : stepPos t d p = none := hl p rfl
    cases fuel with
    | zero => rfl
    | succ n =>
      rw [moves, move_wf_none t d p hstep]
      rfl
  | cons q L ih =>
    intro fuel p hf hc hl hr
    cases fuel with
    | zero => simp at hf
    | succ n =>
      have hstep : stepPos t d p = some q := (List.chain'_cons.mp hc).1
      rw [moves, move_wf_some t d p q hstep]
      have hq : isNil (sub t q) = false := hr q (by simp)
      cases hsub : sub t q with
      | nil => rw [hsub] at hq; simp at hq
      | node lv2 x2 l2 r2 =>
        show (x2 :: moves d n ⟨t, some q, ancs q⟩).map some = _
        rw [List.map_cons, List.map_cons]
        refine congrArg₂ List.cons (by rw [hsub]; rfl) ?_
        exact ih n q (by simp at hf ⊢; omega) (List.chain'_cons.mp hc).2
          (fun q2 hq2 => hl q2 (by rw [List.getLast?_cons_cons]; exact hq2))
          (fun q2 hq2 => hr q2 (List.mem_cons_of_mem _ hq2))

/-- The traversal visits exactly the in-order positions, in order. -/
theorem traversal_pos (d : Bool) (t : ATree α) :
    (traversal d t).map some = (iop d t).map (fun q => dataOf (sub t q)) := by
  cases t with
  | nil => cases d <;> rfl
  | node lv x l r =>
    obtain ⟨hh, hlst, hch, hnn⟩ := iopOK_all d (ATree.node lv x l r)
    have hsel : (if d then jsw_atfirst (ATree.node lv x l r)
        else jsw_atlast (ATree.node lv x l r)) = start (ATree.node lv x l r) (!d) := by
      cases d <;> rfl
    rw [traversal, hsel, start_wf lv x l r (!d)]
    set p0 := cdesc (!d) (ATree.node lv x l r) with hp0
    have hh0 : (iop d (ATree.node lv x l r)).head? = some p0 := by
      rw [hh]; rfl
    have hmem : p0 ∈ iop d (ATree.node lv x l r) :=
      List.mem_of_mem_head? (by rw [Option.mem_def]; exact hh0)
    have hreal := iop_real d (ATree.node lv x l r) p0 hmem
    obtain ⟨L, hL⟩ : ∃ L, iop d (ATree.node lv x l r) = p0 :: L := by
      cases hi : iop d (ATree.node lv x l r) with
      | nil => rw [hi] at hh0; simp at hh0
      | cons a L =>
        rw [hi] at hh0
        simp only [List.head?_cons, Option.some.injEq] at hh0
        exact ⟨L, by rw [hh0]⟩
    have hlen : L.length + 1 = asize (ATree.node lv x l r) := by
      have hq := iop_length d (ATree.node lv x l r)
      rw [hL] at hq
      simpa using hq
    cases hs0 : sub (ATree.node lv x l r) p0 with
    | nil => rw [hs0] at hreal; simp at hreal
    | node lv0 x0 l0 r0 =>
      show (x0 :: moves d (asize (ATree.node lv x l r))
          ⟨ATree.node lv x l r, some p0, ancs p0⟩).map some = _
      rw [hL, List.map_cons, List.map_cons]
      refine congrArg₂ List.cons (by rw [hs0]; rfl) ?_
      refine moves_spec (ATree.node lv x l r) d L (asize (ATree.node lv x l r)) p0
        (by omega) (by rw [← hL]; exact hch)
        (fun q2 hq2 => hnn q2 (by rw [hL]; exact hq2))
        (fun q2 hq2 => iop_real d (ATree.node lv x l r) q2
          (by rw [hL]; exact List.mem_cons_of_mem _ hq2))

/-- Forward in-order positions carry the elements in `elems` order. -/
theorem iop_data_fwd : ∀ t : ATree α,
    (iop true t).map (fun q => dataOf (sub t q)) = (elems t).map some := by
  intro t
  induction t with
  | nil => rfl
  | node lv x l r ihl ihr =>
    show ((iop true l).map (fun p => false :: p) ++
        [] :: (iop true r).map (fun p => true :: p)).map _ = _
    rw [List.map_append, List.map_cons, List.map_map, List.map_map]
    rw [show ((fun q => dataOf (sub (ATree.node lv x l r) q)) ∘ fun p => false :: p) =
        (fun p => dataOf (sub l p)) from rfl]
    rw [show ((fun q => dataOf (sub (ATree.node lv x l r) q)) ∘ fun p => true :: p) =
        (fun p => dataOf (sub r p)) from rfl]
    rw [ihl, ihr]
    show (elems l).map some ++ some x :: (elems r).map some = _
    rw [elems_node, List.map_append, List.map_cons]

/-- Backward in-order positions carry the elements in reversed `elems`
order. -/
theorem iop_data_bwd : ∀ t : ATree α,
    (iop false t).map (fun q => dataOf (sub t q)) = (elems t).reverse.map some := by
  intro t
  induction t with
  | nil => rfl
  | node lv x l r ihl ihr =>
    show ((iop false r).map (fun p => true :: p) ++
        [] :: (iop false l).map (fun p => false :: p)).map _ = _
    rw [List.map_append, List.map_cons, List.map_map, List.map_map]
    rw [show ((fun q => dataOf (sub (ATree.node lv x l r) q)) ∘ fun p => true :: p) =
        (fun p => dataOf (sub r p)) from rfl]
    rw [show ((fun q => dataOf (sub (ATree.node lv x l r) q)) ∘ fun p => false :: p) =
        (fun p => dataOf (sub l p)) from rfl]
    rw [ihl, ihr]
    show (elems r).reverse.map some ++ some x :: (elems l).reverse.map some = _
    rw [elems_node, List.reverse_append, List.reverse_cons, List.map_append,
      List.map_append, List.map_cons]
    simp

theorem traversal_fwd (t : ATree α) : traversal true t = elems t := by
  have h := traversal_pos true t
  rw [iop_data_fwd] at h
  exact List.map_injective_iff.mpr (Option.some_injective α) h

theorem traversal_bwd (t : ATree α) : traversal false t = (elems t).reverse := by
  have h := traversal_pos false t
  rw [iop_data_bwd] at h
  exact List.map_injective_iff.mpr (Option.some_injective α) h

/-- In-order elements of a BST are sorted (non-decreasing under cmp). -/
theorem elems_sorted {cmp : α → α → Int} (hc : CmpOK cmp) :
    ∀ t : ATree α, BST cmp t →
      List.Pairwise (fun a b => cmp a b ≤ 0) (elems t) := by
  intro t
  induction t with
  | nil => intro h; simp
  | node lv x l r ihl ihr =>
    intro h
    obtain ⟨hBl, hBr, h1, h2⟩ := h
    rw [elems_node, List.pairwise_append]
    refine ⟨ihl hBl, ?_, ?_⟩
    · rw [List.pairwise_cons]
      exact ⟨fun y hy => h2 y hy, ihr hBr⟩
    · intro a ha b hb
      have hax : cmp a x ≤ 0 := (hc.le_flip a x).mpr (h1 a ha)
      rcases List.mem_cons.mp hb with rfl | hb2
      · exact hax
      · exact hc.le_trans a x b hax (h2 b hb2)

/-- C6.  Traversal order: on every reachable tree, the forward
traversal (`jsw_atfirst`, then repeated `jsw_atnext` to end-of-sequence)
produces exactly the stored elements — each exactly once, in in-order —
and that sequence is non-decreasing under the comparison; the backward
traversal (`jsw_atlast`, then repeated `jsw_atprev`) produces the
reverse, which is non-increasing. -/
theorem claim6_traversal (cmp : α → α → Int) (hc : CmpOK cmp)
    (ops : List (Op α)) :
    traversal true (run cmp ops).root = elems (run cmp ops).root ∧
    List.Pairwise (fun a b => cmp a b ≤ 0) (traversal true (run cmp ops).root) ∧
    traversal false (run cmp ops).root = (elems (run cmp ops).root).reverse ∧
    List.Pairwise (fun a b => 0 ≤ cmp a b) (traversal false (run cmp ops).root) := by
  obtain ⟨hinv, hbst, hsz⟩ := good_run hc ops
  have h1 := traversal_fwd (run cmp ops).root
  have h3 := traversal_bwd (run cmp ops).root
  have hs := elems_sorted hc _ hbst
  refine ⟨h1, ?_, h3, ?_⟩
  · rw [h1]
    exact hs
  · rw [h3, List.pairwise_reverse]
    exact hs.imp (fun hab => (hc.le_flip _ _).mp hab)

/-- Witness for C6: the comparison `cmpInt` satisfies the hypothesis,
and the conclusion holds for the three-element tree {1, 2, 3}. -/
theorem claim6_traversal_witness :
    CmpOK cmpInt ∧
      (traversal true (run cmpInt [Op.ins true 2, Op.ins true 1, Op.ins true 3]).root =
          elems (run cmpInt [Op.ins true 2, Op.ins true 1, Op.ins true 3]).root ∧
        List.Pairwise (fun a b => cmpInt a b ≤ 0)
          (traversal true (run cmpInt [Op.ins true 2, Op.ins true 1, Op.ins true 3]).root) ∧
        traversal false (run cmpInt [Op.ins true 2, Op.ins true 1, Op.ins true 3]).root =
          (elems (run cmpInt [Op.ins true 2, Op.ins true 1, Op.ins true 3]).root).reverse ∧
        List.Pairwise (fun a b => 0 ≤ cmpInt a b)
          (traversal false (run cmpInt [Op.ins true 2, Op.ins true 1, Op.ins true 3]).root)) :=
  ⟨cmpInt_ok,
    claim6_traversal cmpInt cmpInt_ok [Op.ins true 2, Op.ins true 1, Op.ins true 3]⟩

end JswAtree
